import Mathlib

/-!
Verification of the S-expression parser / structural extractors and the
title-block line patcher of the KiCad process-automation utilities
(`SExpressions.py`, `CIExport.py`).

The Python code is shallowly embedded:
* Python values flowing through the parser and extractors are modelled by
  `PyVal` (`None`, strings, lists, dicts with string keys in insertion order).
* Exceptions are modelled by `Except String`; the string is the Python
  exception class name.
* The `pyparsing` grammar used by `parse_sexpr`
  (`nestedExpr(opener='(', closer=')', content=OneOrMore(word))` with the
  default `ignore_expr = quoted_string()`) is embedded by a fuel-indexed
  recursive descent that reproduces the library semantics:
  each list-element position first tries `quoted_string` (single- or
  double-quoted, kept verbatim with its quotes), then a nested group, then a
  run of `word`s, where inside a run a double-quoted string is matched by the
  `dblQuotedString` alternative whose parse action strips the quotes.
* Files are modelled as lists of raw lines (each line carrying its trailing
  newline character), and the file system as an association list from path to
  line list.
-/

namespace KiCadPA

/-! ## Basic character/string helpers shared by both components -/

/-- Whitespace as configured for the s-expression parser
(`setDefaultWhitespaceChars(' \t\r\n')`). -/
def tokWs (c : Char) : Bool :=
  c == ' ' || c == '\t' || c == '\r' || c == '\n'

/-- Whitespace stripped/split by Python `str.strip()` / `str.split()`
(ASCII whitespace). -/
def pyWs (c : Char) : Bool :=
  c == ' ' || c == '\t' || c == '\n' || c == '\r' || c == '\x0b' || c == '\x0c'

/-- Drop leading and trailing characters satisfying `p` (Python `str.strip`). -/
def trimBoth (p : Char → Bool) (l : List Char) : List Char :=
  ((l.dropWhile p).reverse.dropWhile p).reverse

/-- Python `line.strip()`. -/
def stripWs (l : List Char) : List Char := trimBoth pyWs l

/-- The character set of Python `value.strip('()"')`. -/
def pvChar (c : Char) : Bool :=
  c == '(' || c == ')' || c == '"'

/-- Python `s.strip('()"')`. -/
def stripPV (l : List Char) : List Char := trimBoth pvChar l

/-- Python `str.split()`: split on whitespace runs, discarding empty pieces.
The accumulator holds the current word reversed. -/
def splitWsAux : List Char → List Char → List (List Char)
  | [], acc => if acc.isEmpty then [] else [acc.reverse]
  | c :: cs, acc =>
    if pyWs c then
      if acc.isEmpty then splitWsAux cs [] else acc.reverse :: splitWsAux cs []
    else splitWsAux cs (c :: acc)

def splitWs (l : List Char) : List (List Char) := splitWsAux l []

/-- Python `' '.join(words)`. -/
def joinSp : List (List Char) → List Char
  | [] => []
  | [w] => w
  | w :: ws => w ++ ' ' :: joinSp ws

/-- Python substring test `pat in l`. -/
def isInfixB (pat : List Char) : List Char → Bool
  | [] => pat.isEmpty
  | c :: cs => pat.isPrefixOf (c :: cs) || isInfixB pat cs

/-! ## Python value model -/

/-- Python values produced and consumed by `SExpressions.py`: `None`, `str`,
`list`, and insertion-ordered `dict` with string keys (the fold `to_dict`
only creates string keys). -/
inductive PyVal where
  | none
  | str (s : String)
  | lst (xs : List PyVal)
  | dict (kvs : List (String × PyVal))

/-- Python `==` between a value and a string literal (`prop.get('tag') ==
'property'`): true only for an equal string. -/
def pyEqStr (v : PyVal) (s : String) : Bool :=
  match v with
  | .str t => t == s
  | _ => false

/-- Association-list lookup for the dict model. -/
def dLookup (kvs : List (String × PyVal)) (k : String) : Option PyVal :=
  match kvs with
  | [] => Option.none
  | (k1, v1) :: rest => if k1 == k then some v1 else dLookup rest k

/-- Python `d.get(k)` (default `None`). -/
def dGet (kvs : List (String × PyVal)) (k : String) : PyVal :=
  (dLookup kvs k).getD .none

/-- Python `d.get(k, dflt)`. -/
def dGetD (kvs : List (String × PyVal)) (k : String) (dflt : PyVal) : PyVal :=
  (dLookup kvs k).getD dflt

/-- Python `k in d`. -/
def dMem (kvs : List (String × PyVal)) (k : String) : Bool :=
  (dLookup kvs k).isSome

/-- Python `d[k] = v`: replace in place if present, else append (insertion
order preserved). -/
def dSet (kvs : List (String × PyVal)) (k : String) (v : PyVal) :
    List (String × PyVal) :=
  match kvs with
  | [] => [(k, v)]
  | (k1, v1) :: rest =>
    if k1 == k then (k1, v) :: rest else (k1, v1) :: dSet rest k v

/-- Python exceptions are modelled by their class name. -/
abbrev Err := String

/-- Python `len(v)` (`TypeError` on `None`). -/
def pyLen (v : PyVal) : Except Err Nat :=
  match v with
  | .str s => .ok s.length
  | .lst xs => .ok xs.length
  | .dict kvs => .ok kvs.length
  | .none => .error "TypeError"

/-- Python `v[i]` for a non-negative integer index: list item or string
character (`IndexError` when out of range), `KeyError` on a string-keyed
dict, `TypeError` on `None`. -/
def pyIdx (v : PyVal) (i : Nat) : Except Err PyVal :=
  match v with
  | .lst xs =>
    match xs.get? i with
    | some x => .ok x
    | Option.none => .error "IndexError"
  | .str s =>
    match s.data.get? i with
    | some c => .ok (.str (String.singleton c))
    | Option.none => .error "IndexError"
  | .dict _ => .error "KeyError"
  | .none => .error "TypeError"

/-- Python `v[k]` for a string key `k`: dict lookup (`KeyError` when absent);
indexing a list or string with a string raises `TypeError`, as does `None`. -/
def pyGetItem (v : PyVal) (k : String) : Except Err PyVal :=
  match v with
  | .dict kvs =>
    match dLookup kvs k with
    | some x => .ok x
    | Option.none => .error "KeyError"
  | _ => .error "TypeError"

/-- Python `v.get(k)`: only dicts have `.get`; anything else raises
`AttributeError`. -/
def pyGetAttrGet (v : PyVal) (k : String) : Except Err PyVal :=
  match v with
  | .dict kvs => .ok (dGet kvs k)
  | _ => .error "AttributeError"

/-- Python `v.get(k, dflt)` with an explicit default. -/
def pyGetAttrGetD (v : PyVal) (k : String) (dflt : PyVal) : Except Err PyVal :=
  match v with
  | .dict kvs => .ok (dGetD kvs k dflt)
  | _ => .error "AttributeError"

/-- Python `for x in v`: list items, string characters, or dict keys;
iterating `None` raises `TypeError`. -/
def pyIter (v : PyVal) : Except Err (List PyVal) :=
  match v with
  | .lst xs => .ok xs
  | .str s => .ok (s.data.map (fun c => .str (String.singleton c)))
  | .dict kvs => .ok (kvs.map (fun kv => .str kv.1))
  | .none => .error "TypeError"

/-- Python `needle in v` for a string needle: dict-key membership, list
membership via `==`, substring test on strings; `TypeError` on `None`. -/
def pyContains (needle : String) (v : PyVal) : Except Err Bool :=
  match v with
  | .dict kvs => .ok (dMem kvs needle)
  | .lst xs => .ok (xs.any (fun x => pyEqStr x needle))
  | .str s => .ok (isInfixB needle.data s.data)
  | .none => .error "TypeError"

/-- Python truthiness (`if points:`). -/
def pyTruthy (v : PyVal) : Bool :=
  match v with
  | .none => false
  | .str s => !s.isEmpty
  | .lst xs => !xs.isEmpty
  | .dict kvs => !kvs.isEmpty

/-- Iterable unpacking `x, y, r = v` of exactly three values
(`TypeError` for a non-iterable, `ValueError` on a length mismatch). -/
def pyUnpack3 (v : PyVal) : Except Err (PyVal × PyVal × PyVal) := do
  let xs ← pyIter v
  match xs with
  | [a, b, c] => .ok (a, b, c)
  | _ => .error "ValueError"

/-- Iterable unpacking `x, y = v` of exactly two values. -/
def pyUnpack2 (v : PyVal) : Except Err (PyVal × PyVal) := do
  let xs ← pyIter v
  match xs with
  | [a, b] => .ok (a, b)
  | _ => .error "ValueError"

/-! ## Python `int()` and `float()` on strings -/

def isDigitCh (c : Char) : Bool := '0' ≤ c && c ≤ '9'

def digitVal (c : Char) : Nat := c.toNat - '0'.toNat

/-- Parse a decimal digit run that may contain single underscores between
digits (Python numeric literals accepted by `int()`/`float()`).
Returns the digits (underscores removed) and the rest. Fails when the run
does not start with a digit. -/
def digitRun : List Char → Option (List Char × List Char)
  | [] => Option.none
  | c :: cs =>
    if isDigitCh c then
      match digitRunTail cs with
      | (ds, rest) => some (c :: ds, rest)
    else Option.none
where
  digitRunTail : List Char → (List Char × List Char)
    | [] => ([], [])
    | c :: cs =>
      if isDigitCh c then
        match digitRunTail cs with
        | (ds, rest) => (c :: ds, rest)
      else if c == '_' then
        match cs with
        | c2 :: cs2 =>
          if isDigitCh c2 then
            match digitRunTail cs2 with
            | (ds, rest) => (c2 :: ds, rest)
          else ([], '_' :: c2 :: cs2)
        | [] => ([], ['_'])
      else ([], c :: cs)

def digitsToNat (ds : List Char) : Nat :=
  ds.foldl (fun acc c => acc * 10 + digitVal c) 0

/-- Python `int(s)` on a string: optional surrounding whitespace, optional
sign, then a decimal digit run (underscore grouping allowed); anything else
raises `ValueError`. -/
def pyIntStr (s : String) : Except Err Int :=
  let l := stripWs s.data
  let (sign, l) : Int × List Char :=
    match l with
    | '+' :: rest => (1, rest)
    | '-' :: rest => (-1, rest)
    | _ => (1, l)
  match digitRun l with
  | some (ds, []) => .ok (sign * (digitsToNat ds : Int))
  | _ => .error "ValueError"

/-- Python `int(v)`: parse strings, `TypeError` otherwise (`None`, lists,
dicts). -/
def pyInt (v : PyVal) : Except Err Int :=
  match v with
  | .str s => pyIntStr s
  | _ => .error "TypeError"

/-- Does `s` (lowercased) spell a non-finite `float()` literal? -/
def floatSpecial (l : List Char) : Bool :=
  let low := l.map Char.toLower
  low == "inf".data || low == "infinity".data || low == "nan".data

/-- Validity of the body of a Python `float()` literal after the optional
sign: `digits [. [digits]] [exp]` or `. digits [exp]`. -/
def floatBody (l : List Char) : Bool :=
  let afterMant : Option (List Char) :=
    match digitRun l with
    | some (_, rest) =>
      match rest with
      | '.' :: rest2 =>
        match digitRun rest2 with
        | some (_, rest3) => some rest3
        | Option.none => some rest2
      | _ => some rest
    | Option.none =>
      match l with
      | '.' :: rest2 =>
        match digitRun rest2 with
        | some (_, rest3) => some rest3
        | Option.none => Option.none
      | _ => Option.none
  match afterMant with
  | Option.none => false
  | some rest =>
    match rest with
    | [] => true
    | e :: rest2 =>
      if e == 'e' || e == 'E' then
        let rest3 :=
          match rest2 with
          | '+' :: r => r
          | '-' :: r => r
          | r => r
        match digitRun rest3 with
        | some (_, []) => true
        | _ => false
      else false

/-- Python `float(v)` used only as a conversion guard: the embedding
validates that the string is a well-formed float literal and keeps the
original token (no claim depends on floating-point arithmetic, so the
numeric value is not modelled). Non-strings raise `TypeError`. -/
def pyFloatTok (v : PyVal) : Except Err String :=
  match v with
  | .str s =>
    let l := stripWs s.data
    let body :=
      match l with
      | '+' :: rest => rest
      | '-' :: rest => rest
      | _ => l
    if floatSpecial body || floatBody body then .ok s
    else .error "ValueError"
  | _ => .error "TypeError"

/-! ## The pyparsing tokenizer used by `parse_sexpr`

`word = Word(alphanums + '_-.:/?=&') | dblQuotedString.setParseAction(strip)`
`token = nestedExpr(opener='(', closer=')', content=OneOrMore(word))`

`nestedExpr` builds
`Group(Suppress('(') + ZeroOrMore(quoted_string | ret | OneOrMore(word)) + Suppress(')'))`:
at the start of each `ZeroOrMore` iteration the default ignore expression
`quoted_string` (single- or double-quoted, token kept verbatim) is tried
first, then a nested group, then a maximal run of `word`s; inside such a run
a double-quoted string is consumed by the `dblQuotedString` alternative of
`word`, whose parse action strips the outer quote pair. -/

/-- The `Word(alphanums + '_-.:/?=&')` character class (ASCII letters and
digits plus the listed punctuation). -/
def atomChar (c : Char) : Bool :=
  ('a' ≤ c && c ≤ 'z') || ('A' ≤ c && c ≤ 'Z') || isDigitCh c ||
  c == '_' || c == '-' || c == '.' || c == ':' || c == '/' ||
  c == '?' || c == '=' || c == '&'

def skipTokWs (l : List Char) : List Char := l.dropWhile tokWs

def isHexCh (c : Char) : Bool :=
  isDigitCh c || ('a' ≤ c && c ≤ 'f') || ('A' ≤ c && c ≤ 'F')

/-- Body of the pyparsing quoted-string regex
`q(?:[^q\n\r\\]|(?:qq)|(?:\\(?:[^x]|x[0-9a-fA-F]+)))*q` for quote
character `q`, with the regex backtracking at the doubled-quote choice
point. Returns the body characters (between the outer quotes) and the rest
of the input after the closing quote. -/
def qBody (q : Char) : Nat → List Char → Option (List Char × List Char)
  | 0, _ => Option.none
  | _, [] => Option.none
  | fuel + 1, c :: cs =>
    if c == q then
      match cs with
      | c2 :: cs2 =>
        if c2 == q then
          -- greedy: treat the doubled quote as body, else close here
          match qBody q fuel cs2 with
          | some (b, r) => some (q :: q :: b, r)
          | Option.none => some ([], cs)
        else some ([], cs)
      | [] => some ([], [])
    else if c == '\\' then
      match cs with
      | 'x' :: cs2 =>
        let hex := cs2.takeWhile isHexCh
        if hex.isEmpty then Option.none
        else
          match qBody q fuel (cs2.dropWhile isHexCh) with
          | some (b, r) => some ('\\' :: 'x' :: hex ++ b, r)
          | Option.none => Option.none
      | c2 :: cs2 =>
        match qBody q fuel cs2 with
        | some (b, r) => some ('\\' :: c2 :: b, r)
        | Option.none => Option.none
      | [] => Option.none
    else if c == '\n' || c == '\r' then Option.none
    else
      match qBody q fuel cs with
      | some (b, r) => some (c :: b, r)
      | Option.none => Option.none

/-- Try to match a quoted string with quote character `q` at the head of the
input; on success return the body (without the outer quotes) and the rest. -/
def matchQuote (q : Char) (fuel : Nat) : List Char → Option (List Char × List Char)
  | c :: cs => if c == q then qBody q fuel cs else Option.none
  | [] => Option.none

/-- The raw tree produced by `parseString(...).asList()`: atoms (tokens) and
nested groups. -/
inductive Tree where
  | atom (s : String)
  | node (xs : List Tree)

/-- One pass of the `ZeroOrMore` body. `isRun = true` means a
`OneOrMore(word)` run is in progress (double-quoted strings are stripped
there); `isRun = false` is an iteration boundary (quoted strings are kept
verbatim by the ignore expression). Returns the collected elements and the
unconsumed rest (positioned at the closing paren or at an unparsable
character, whitespace already skipped). -/
def parseElems : Nat → Bool → List Char → Except Err (List Tree × List Char)
  | 0, _, _ => .error "Fuel"
  | fuel + 1, isRun, cs0 =>
    let cs := skipTokWs cs0
    if isRun then
      match cs with
      | c :: _ =>
        if atomChar c then
          let w := cs.takeWhile atomChar
          match parseElems fuel true (cs.dropWhile atomChar) with
          | .ok (ts, r) => .ok (.atom (String.mk w) :: ts, r)
          | .error e => .error e
        else
          match matchQuote '"' fuel cs with
          | some (b, r) =>
            -- dblQuotedString with the quote-stripping parse action
            match parseElems fuel true r with
            | .ok (ts, r2) => .ok (.atom (String.mk b) :: ts, r2)
            | .error e => .error e
          | Option.none => parseElems fuel false cs
      | [] => parseElems fuel false cs
    else
      match matchQuote '"' fuel cs with
      | some (b, r) =>
        -- quoted_string ignore expression: token kept verbatim with quotes
        match parseElems fuel false r with
        | .ok (ts, r2) => .ok (.atom (String.mk ('"' :: b ++ ['"'])) :: ts, r2)
        | .error e => .error e
      | Option.none =>
        match matchQuote '\'' fuel cs with
        | some (b, r) =>
          match parseElems fuel false r with
          | .ok (ts, r2) => .ok (.atom (String.mk ('\'' :: b ++ ['\''])) :: ts, r2)
          | .error e => .error e
        | Option.none =>
          match cs with
          | '(' :: rest =>
            match parseElems fuel false rest with
            | .ok (children, r) =>
              match r with
              | ')' :: r2 =>
                match parseElems fuel false r2 with
                | .ok (ts, r3) => .ok (.node children :: ts, r3)
                | .error e => .error e
              | _ => .error "ParseException"
            | .error e => .error e
          | c :: _ =>
            if atomChar c then parseElems fuel true cs
            else .ok ([], cs)
          | [] => .ok ([], cs)

/-- `token.parseString(sexpr, parseAll=True).asList()`: exactly one balanced
top-level group, with only whitespace around it. -/
def tokenizeSexpr (s : String) : Except Err (List Tree) :=
  let fuel := 2 * s.data.length + 4
  match skipTokWs s.data with
  | '(' :: rest =>
    match parseElems fuel false rest with
    | .ok (children, r) =>
      match r with
      | ')' :: r2 =>
        if (skipTokWs r2).isEmpty then .ok children
        else .error "ParseException"
      | _ => .error "ParseException"
    | .error e => .error e
  | _ => .error "ParseException"

/-! ## The fold `to_dict` and `parse_sexpr` -/

/-- `set(value.keys()) == {"tag", "positional"}`. -/
def keysTagPositional (kvs : List (String × PyVal)) : Bool :=
  dMem kvs "tag" && dMem kvs "positional" &&
  kvs.all (fun kv => kv.1 == "tag" || kv.1 == "positional")

/-- The "just a string" collapsing rule of `to_dict`:
if the folded child has exactly the keys `tag` and `positional`, replace it
by its `positional` value, and a length-one value by its single element. -/
def collapseValue (v : PyVal) : Except Err PyVal :=
  match v with
  | .dict kvs =>
    if keysTagPositional kvs then do
      let p := dGet kvs "positional"
      let n ← pyLen p
      if n == 1 then pyIdx p 0 else .ok p
    else .ok v
  | v => .ok v

/-- `if key in d: (wrap non-list) append else d[key] = value`. -/
def dInsertMulti (kvs : List (String × PyVal)) (k : String) (v : PyVal) :
    List (String × PyVal) :=
  match dLookup kvs k with
  | Option.none => kvs ++ [(k, v)]
  | some old =>
    match old with
    | .lst xs => dSet kvs k (.lst (xs ++ [v]))
    | o => dSet kvs k (.lst [o, v])

/-- `d.setdefault('positional', []).append(x)` /
`...extend(xs)` (appending to a non-list raises `AttributeError`). -/
def dExtendPositional (kvs : List (String × PyVal)) (xs : List PyVal) :
    Except Err (List (String × PyVal)) :=
  match dLookup kvs "positional" with
  | Option.none => .ok (kvs ++ [("positional", .lst xs)])
  | some (.lst old) => .ok (dSet kvs "positional" (.lst (old ++ xs)))
  | some _ => .error "AttributeError"

/-- `to_dict` of `SExpressions.py`, fuel-indexed (the fuel bounds the number
of loop iterations plus nested descents, and is consumed on every step).
The argument is the Python list (or string) being folded; a `Tree.atom`
item corresponds to a string, and `to_dict` called recursively on a string
enumerates its characters. -/
def toDictLoop : Nat → Nat → List (String × PyVal) → List Tree →
    Except Err (List (String × PyVal))
  | 0, _, _, _ => .error "Fuel"
  | _ + 1, _, d, [] => .ok d
  | fuel + 1, i, d, item :: rest =>
    match item with
    | .node its =>
      match its with
      | [] => .error "IndexError"
      | first :: _ =>
        match first with
        | .atom key => do
          -- value = to_dict(item[0:]) over the whole child list
          let value0 ← toDictLoop fuel 0 [] its
          let value ← collapseValue (.dict value0)
          toDictLoop fuel (i + 1) (dInsertMulti d key value) rest
        | .node _ => do
          -- positional = [to_dict(sub_item) for sub_item in item]
          let ps ← its.mapM (fun sub =>
            match sub with
            | .atom s =>
              (fun kvs => PyVal.dict kvs) <$>
                toDictLoop fuel 0 []
                  (s.data.map (fun c => Tree.atom (String.singleton c)))
            | .node ys => (fun kvs => PyVal.dict kvs) <$> toDictLoop fuel 0 [] ys)
          let d2 ← dExtendPositional d ps
          toDictLoop fuel (i + 1) d2 rest
    | .atom s =>
      if i == 0 then toDictLoop fuel 1 (dSet d "tag" (.str s)) rest
      else do
        let d2 ← dExtendPositional d [.str s]
        toDictLoop fuel (i + 1) d2 rest

/-- `parse_sexpr` of `SExpressions.py`: tokenize (exactly one top-level
balanced group) and fold the root element with `to_dict`. The fold fuel
bounds the nesting depth, which is at most the input length. -/
def parse_sexpr (s : String) : Except Err PyVal := do
  let children ← tokenizeSexpr s
  (fun kvs => PyVal.dict kvs) <$> toDictLoop (s.data.length + 2) 0 [] children

/-! ## Result dictionaries keyed by Python values

`extract_datasheets` and the symbol maps use `symbol_name` (an arbitrary
`PyVal`) as a dict key. Lists and dicts are unhashable (`TypeError`); the
hashable values occurring here are `None` and strings. -/

abbrev PyKey := Option String

/-- Convert a value into a dict key (`TypeError` for unhashable values). -/
def toKey (v : PyVal) : Except Err PyKey :=
  match v with
  | .none => .ok Option.none
  | .str s => .ok (some s)
  | .lst _ => .error "TypeError"
  | .dict _ => .error "TypeError"

/-- `d[k] = v` on a `PyKey`-keyed insertion-ordered dict. -/
def kSet {α : Type} (kvs : List (PyKey × α)) (k : PyKey) (v : α) :
    List (PyKey × α) :=
  match kvs with
  | [] => [(k, v)]
  | (k1, v1) :: rest =>
    if k1 = k then (k1, v) :: rest else (k1, v1) :: kSet rest k v

/-! ## `extract_datasheets` -/

/-- Body of the `for prop in properties` loop of `extract_datasheets`. -/
def datasheetProp (symbol_name : PyVal) (ds : List (PyKey × PyVal))
    (prop : PyVal) : Except Err (List (PyKey × PyVal)) := do
  let t ← pyGetAttrGet prop "tag"
  if pyEqStr t "property" then do
    let posl ← pyGetAttrGetD prop "positional" (.lst [])
    let b ← pyContains "Datasheet" posl
    if b then do
      let pp ← pyGetItem prop "positional"
      let url ← pyIdx pp 1
      let k ← toKey symbol_name
      pure (kSet ds k url)
    else pure ds
  else pure ds

/-- Body of the `for symbol in symbols` loop of `extract_datasheets`. -/
def datasheetSymbol (ds : List (PyKey × PyVal)) (symbol : PyVal) :
    Except Err (List (PyKey × PyVal)) := do
  -- assert symbol.get('positional') is not None (AttributeError on non-dict)
  let pos ← pyGetAttrGet symbol "positional"
  if let .none := pos then throw "AssertionError"
  -- assert len(symbol['positional']) > 0
  let posv ← pyGetItem symbol "positional"
  let n ← pyLen posv
  if n == 0 then throw "AssertionError"
  let symbol_name ← pyIdx posv 0
  -- assert symbol.get('property') is not None
  let prop ← pyGetAttrGet symbol "property"
  if let .none := prop then throw "AssertionError"
  -- properties = symbol.get('property', []) — note: NOT list-normalized here
  let properties ← pyGetAttrGetD symbol "property" (.lst [])
  let props ← pyIter properties
  props.foldlM (datasheetProp symbol_name) ds

/-- `extract_datasheets` of `SExpressions.py`. -/
def extract_datasheets (parsed_data : PyVal) :
    Except Err (List (PyKey × PyVal)) := do
  -- assert isinstance(parsed_data, dict)
  let kvs ←
    match parsed_data with
    | .dict kvs => pure kvs
    | _ => throw "AssertionError"
  -- assert parsed_data.get('tag') == 'kicad_symbol_lib'
  if !pyEqStr (dGet kvs "tag") "kicad_symbol_lib" then throw "AssertionError"
  let symbols := dGetD kvs "symbol" (.lst [])
  -- if isinstance(symbols, dict): symbols = [symbols]
  let symbols :=
    match symbols with
    | .dict s => PyVal.lst [.dict s]
    | v => v
  let syms ← pyIter symbols
  syms.foldlM datasheetSymbol []

/-! ## `extract_symbols_to_pins_map` -/

/-- The `Pin` namedtuple. `x`/`y` keep the source token validated by
`float()` (see `pyFloatTok`). -/
structure Pin where
  name : PyVal
  number : PyVal
  ptype : PyVal
  rotation : Int
  x : String
  y : String

/-- Body of the `for pin in pins` loop. -/
def readPin (acc : List Pin) (pin : PyVal) : Except Err (List Pin) := do
  let pp ← pyGetItem pin "positional"
  let pin_type ← pyIdx pp 0
  let atv ← pyGetItem pin "at"
  let (xv, yv, rv) ← pyUnpack3 atv
  let x ← pyFloatTok xv
  let y ← pyFloatTok yv
  let r ← pyInt rv
  let namev ← pyGetItem pin "name"
  let np ← pyGetItem namev "positional"
  let pin_name ← pyIdx np 0
  let numv ← pyGetItem pin "number"
  let nump ← pyGetItem numv "positional"
  let pin_number ← pyIdx nump 0
  pure (acc ++ [⟨pin_name, pin_number, pin_type, r, x, y⟩])

/-- Body of the `for subsymbol in subsymbols` loop. -/
def readSubsymbolPins (acc : List Pin) (ss : PyVal) : Except Err (List Pin) := do
  let b ← pyContains "pin" ss
  if b then do
    let pinsv ← pyGetItem ss "pin"
    let pl :=
      match pinsv with
      | .lst xs => xs
      | v => [v]
    pl.foldlM readPin acc
  else pure acc

/-- `current_symbol_pins.sort(key=lambda x: int(x.number))`: CPython first
evaluates the key on every element in list order, then sorts stably. -/
def decoratePins (pins : List Pin) : Except Err (List (Int × Pin)) :=
  pins.mapM (fun p => do
    let k ← pyInt p.number
    pure (k, p))

/-- Stable insertion (a new element goes after equal keys). -/
def insertByKey (x : Int × Pin) : List (Int × Pin) → List (Int × Pin)
  | [] => [x]
  | y :: ys => if y.1 ≤ x.1 then y :: insertByKey x ys else x :: y :: ys

def sortByKey (l : List (Int × Pin)) : List (Int × Pin) :=
  l.foldl (fun acc x => insertByKey x acc) []

/-- Body of the `for symbol in symbols` loop of
`extract_symbols_to_pins_map`. -/
def pinsSymbol (m : List (PyKey × List Pin)) (symbol : PyVal) :
    Except Err (List (PyKey × List Pin)) := do
  let pos ← pyGetAttrGet symbol "positional"
  if let .none := pos then throw "AssertionError"
  let posv ← pyGetItem symbol "positional"
  let n ← pyLen posv
  if n == 0 then throw "AssertionError"
  let symbol_name ← pyIdx posv 0
  let prop ← pyGetAttrGet symbol "property"
  if let .none := prop then throw "AssertionError"
  -- extends = symbol.get("extends"); skip extended symbols
  let ext ← pyGetAttrGet symbol "extends"
  match ext with
  | .none => do
    let subsymbols ← pyGetAttrGet symbol "symbol"
    -- if not isinstance(subsymbols, list): subsymbols = [subsymbols]
    let subs :=
      match subsymbols with
      | .lst xs => xs
      | v => [v]
    let pins ← subs.foldlM readSubsymbolPins []
    let dec ← decoratePins pins
    let k ← toKey symbol_name
    pure (kSet m k ((sortByKey dec).map (fun kp => kp.2)))
  | _ => pure m

/-- `extract_symbols_to_pins_map` of `SExpressions.py`. -/
def extract_symbols_to_pins_map (tree : PyVal) :
    Except Err (List (PyKey × List Pin)) := do
  let kvs ←
    match tree with
    | .dict kvs => pure kvs
    | _ => throw "AttributeError"
  let symbols := dGetD kvs "symbol" (.lst [])
  let symbols :=
    match symbols with
    | .dict s => PyVal.lst [.dict s]
    | v => v
  let syms ← pyIter symbols
  syms.foldlM pinsSymbol []

/-! ## Graphical-element extraction -/

/-- The three graphical-primitive namedtuples. Coordinates keep their
`float()`-validated source tokens. -/
inductive GraphElem where
  | text (content : PyVal) (x y : String) (rot : Int)
  | rect (sx sy ex ey : String) (fill : PyVal)
  | poly (pts : List (String × String))

/-- `extract_graphical_texts`. -/
def extract_graphical_texts (texts : PyVal) : Except Err (List GraphElem) := do
  let ts :=
    match texts with
    | .lst xs => xs
    | v => [v]
  ts.foldlM (fun acc text => do
    let pp ← pyGetItem text "positional"
    let content ← pyIdx pp 0
    let atv ← pyGetItem text "at"
    let (xv, yv, rv) ← pyUnpack3 atv
    let x ← pyFloatTok xv
    let y ← pyFloatTok yv
    let r ← pyInt rv
    pure (acc ++ [GraphElem.text content x y r])) []

/-- `extract_graphical_rectangles`. -/
def extract_graphical_rectangles (rectangles : PyVal) :
    Except Err (List GraphElem) := do
  let rs :=
    match rectangles with
    | .lst xs => xs
    | v => [v]
  rs.foldlM (fun acc rectangle => do
    let sv ← pyGetItem rectangle "start"
    let (sxv, syv) ← pyUnpack2 sv
    let ev ← pyGetItem rectangle "end"
    let (exv, eyv) ← pyUnpack2 ev
    let sx ← pyFloatTok sxv
    let sy ← pyFloatTok syv
    let ex ← pyFloatTok exv
    let ey ← pyFloatTok eyv
    -- fill = rectangle.get("fill", {}).get("type")
    let fillv ← pyGetAttrGetD rectangle "fill" (.dict [])
    let fill ← pyGetAttrGet fillv "type"
    pure (acc ++ [GraphElem.rect sx sy ex ey fill])) []

/-- `extract_graphical_polylines`. -/
def extract_graphical_polylines (polylines : PyVal) :
    Except Err (List GraphElem) := do
  let ps :=
    match polylines with
    | .lst xs => xs
    | v => [v]
  ps.foldlM (fun acc polyline => do
    -- points = polyline.get("pts", []).get("xy", [])
    let pts ← pyGetAttrGetD polyline "pts" (.lst [])
    let points ← pyGetAttrGetD pts "xy" (.lst [])
    if pyTruthy points then do
      let n ← pyLen points
      -- len(points) >= 2 and isinstance(points[0], str) and isinstance(points[1], str)
      let headPairStr ←
        if n ≥ 2 then do
          let p0 ← pyIdx points 0
          match p0 with
          | .str _ => do
            let p1 ← pyIdx points 1
            match p1 with
            | .str _ => pure true
            | _ => pure false
          | _ => pure false
        else pure false
      let (start, remaining) ←
        if headPairStr then
          match points with
          | .lst (a :: b :: rest) => do
            -- start_x, start_y = float(points.pop(0)), float(points.pop(0))
            let sx ← pyFloatTok a
            let sy ← pyFloatTok b
            pure ([(sx, sy)], PyVal.lst rest)
          | .str _ => throw "AttributeError" -- str has no .pop
          | _ => throw "TypeError"
        else pure (([] : List (String × String)), points)
      let elems ← pyIter remaining
      let pts2 ← elems.foldlM (fun l xy => do
        let xv ← pyIdx xy 0
        let x ← pyFloatTok xv
        let yv ← pyIdx xy 1
        let y ← pyFloatTok yv
        pure (l ++ [(x, y)])) start
      pure (acc ++ [GraphElem.poly pts2])
    else pure acc) []

/-- Deterministic stand-in for the Python sort key `str(element)` used by
`sorted(current_symbol_graphical, key=lambda x: str(x))`. Only determinism
of the resulting order is relied upon downstream (the spec notes the exact
order is not semantically meaningful), so the key renders the stored tokens
rather than Python float reprs. -/
def graphKey (e : GraphElem) : String :=
  match e with
  | .text c x y r =>
    let cs :=
      match c with
      | .str s => s
      | .none => "None"
      | .lst _ => "list"
      | .dict _ => "dict"
    "GraphicalText(" ++ cs ++ ", " ++ x ++ ", " ++ y ++ ", " ++ toString r ++ ")"
  | .rect sx sy ex ey fill =>
    let fs :=
      match fill with
      | .str s => s
      | .none => "None"
      | .lst _ => "list"
      | .dict _ => "dict"
    "GraphicalRectangle(" ++ sx ++ ", " ++ sy ++ ", " ++ ex ++ ", " ++ ey ++
      ", " ++ fs ++ ")"
  | .poly pts =>
    "GraphicalPolyline(" ++
      String.intercalate ", " (pts.map (fun p => p.1 ++ " " ++ p.2)) ++ ")"

/-- Stable insertion by `graphKey` (new element goes after equal keys). -/
def insertByStr (x : GraphElem) : List GraphElem → List GraphElem
  | [] => [x]
  | y :: ys =>
    if graphKey x < graphKey y then x :: y :: ys else y :: insertByStr x ys

/-- `sorted(l, key=str)` (stable). -/
def sortByStr (l : List GraphElem) : List GraphElem :=
  l.foldl (fun acc x => insertByStr x acc) []

/-- Body of the `for subsymbol in subsymbols` loop of
`extract_symbols_to_graphical_elements_map`; both the sort and the map
assignment happen inside this loop in the source. -/
def graphSubsymbol (symbol_name : PyVal)
    (st : List GraphElem × List (PyKey × List GraphElem)) (ss : PyVal) :
    Except Err (List GraphElem × List (PyKey × List GraphElem)) := do
  let (cur, m) := st
  let texts ← pyGetAttrGetD ss "text" (.lst [])
  let cur := cur ++ (← extract_graphical_texts texts)
  let rectangles ← pyGetAttrGetD ss "rectangle" (.lst [])
  let cur := cur ++ (← extract_graphical_rectangles rectangles)
  let polylines ← pyGetAttrGetD ss "polyline" (.lst [])
  let cur := cur ++ (← extract_graphical_polylines polylines)
  let cur := sortByStr cur
  let k ← toKey symbol_name
  pure (cur, kSet m k cur)

/-- Body of the `for symbol in symbols` loop of
`extract_symbols_to_graphical_elements_map`. -/
def graphSymbol (m : List (PyKey × List GraphElem)) (symbol : PyVal) :
    Except Err (List (PyKey × List GraphElem)) := do
  let pos ← pyGetAttrGet symbol "positional"
  if let .none := pos then throw "AssertionError"
  let posv ← pyGetItem symbol "positional"
  let n ← pyLen posv
  if n == 0 then throw "AssertionError"
  let symbol_name ← pyIdx posv 0
  let prop ← pyGetAttrGet symbol "property"
  if let .none := prop then throw "AssertionError"
  let ext ← pyGetAttrGet symbol "extends"
  match ext with
  | .none => do
    let subsymbols ← pyGetAttrGet symbol "symbol"
    let subs :=
      match subsymbols with
      | .lst xs => xs
      | v => [v]
    let (_, m2) ← subs.foldlM (graphSubsymbol symbol_name) ([], m)
    pure m2
  | _ => pure m

/-- `extract_symbols_to_graphical_elements_map` of `SExpressions.py`. -/
def extract_symbols_to_graphical_elements_map (tree : PyVal) :
    Except Err (List (PyKey × List GraphElem)) := do
  let kvs ←
    match tree with
    | .dict kvs => pure kvs
    | _ => throw "AttributeError"
  let symbols := dGetD kvs "symbol" (.lst [])
  let symbols :=
    match symbols with
    | .dict s => PyVal.lst [.dict s]
    | v => v
  let syms ← pyIter symbols
  syms.foldlM graphSymbol []

/-! ## TitleBlockParser (`CIExport.py`)

Files are lists of raw lines; each line keeps all of its characters
including the trailing newline, so equality of line lists is byte
identity. The parser is the line-by-line state machine of
`TitleBlockParser.parse`; `insert_title_block_data` replays the buffered
lines and injects a freshly printed title block after the first line whose
stripped form contains `"(uuid"`. -/

abbrev Line := List Char

/-- Title-block mapping: insertion-ordered dict with char-list keys and
values. -/
abbrev TBDict := List (Line × Line)

/-- `d[k] = v` on the title-block dict. -/
def dSetL (kvs : TBDict) (k v : Line) : TBDict :=
  match kvs with
  | [] => [(k, v)]
  | (k1, v1) :: rest =>
    if k1 = k then (k1, v) :: rest else (k1, v1) :: dSetL rest k v

namespace TitleBlockParser

def markerChars : List Char := "(title_block".data

def uuidChars : List Char := "(uuid".data

structure TBState where
  inBlock : Bool
  found : Bool
  data : TBDict
  buffer : List Line

def initState : TBState := ⟨false, false, [], []⟩

/-- The trailing end-of-block check of each loop iteration:
`if in_title_block and stripped_line == ")": in_title_block = False`. -/
def tbStepEnd (st1 : TBState) (s : List Char) : TBState :=
  if st1.inBlock && s = [')'] then { st1 with inBlock := false } else st1

/-- One loop iteration of `TitleBlockParser.parse`. -/
def tbStep (st : TBState) (line : Line) : TBState :=
  if isInfixB markerChars (stripWs line) then { st with found := true, inBlock := true }
  else
    tbStepEnd
      (if st.inBlock then
        match splitWs (stripWs line) with
        | p0 :: p1 :: rest =>
          { st with data := dSetL st.data (p0.drop 1) (stripPV (joinSp (p1 :: rest))) }
        | _ => st
      else { st with buffer := st.buffer ++ [line] })
      (stripWs line)

/-- The final parser state for a file. -/
def runParse (lines : List Line) : TBState := lines.foldl tbStep initState

/-- `TitleBlockParser.parse`: the mapping if a title block was found, else
`None`. -/
def parse (lines : List Line) : Option TBDict :=
  let st := runParse lines
  if st.found then some st.data else Option.none

/-- `self.lines_without_title_block` after `parse`. -/
def linesWithoutTitleBlock (lines : List Line) : List Line :=
  (runParse lines).buffer

/-- The injected field line `     (key "value")\n`. -/
def fieldLine (k v : Line) : Line :=
  "     (".data ++ k ++ " \"".data ++ v ++ "\")\n".data

/-- The lines injected for the whole title block. -/
def tbBlockLines (data : TBDict) : List Line :=
  "  (title_block\n".data :: (data.map (fun kv => fieldLine kv.1 kv.2) ++ ["  )\n".data])

/-- `TitleBlockParser.insert_title_block_data` as a function from the
buffered lines to the written output lines: every buffered line is written
verbatim, and the title block is injected right after the first line whose
stripped form contains `"(uuid"`. -/
def insertTB (data : TBDict) : List Line → List Line
  | [] => []
  | l :: ls =>
    if isInfixB uuidChars (stripWs l) then l :: (tbBlockLines data ++ ls)
    else l :: insertTB data ls

/-- Python `dict.update`: apply the override pairs in order. -/
def dictUpdate (d : TBDict) (upd : TBDict) : TBDict :=
  upd.foldl (fun acc kv => dSetL acc kv.1 kv.2) d

/-- `TitleBlockParser.update_file` as a pure function from the input file
lines to the output file lines: parse, coerce the not-found sentinel to an
empty dict (`parser.parse(infile) or {}`), apply the overrides, rewrite. -/
def updateLines (lines : List Line) (upd : TBDict) : List Line :=
  insertTB
    (dictUpdate
      (match parse lines with
        | some d => d
        | Option.none => []) upd)
    (linesWithoutTitleBlock lines)

end TitleBlockParser

/-! ## File-system model for the backup/restore contract -/

/-- A file system: association list from path to file content (list of
lines), set-semantics on write. -/
abbrev FS := List (String × List Line)

def fsLookup (fs : FS) (p : String) : Option (List Line) :=
  match fs with
  | [] => Option.none
  | (q, c) :: rest => if q == p then some c else fsLookup rest p

/-- Write (create or overwrite) a file. -/
def fsWrite (fs : FS) (p : String) (c : List Line) : FS :=
  match fs with
  | [] => [(p, c)]
  | (q, c1) :: rest =>
    if q == p then (q, c) :: rest else (q, c1) :: fsWrite rest p c

/-- `open(p)` for reading: `FileNotFoundError` when absent. -/
def fsRead (fs : FS) (p : String) : Except Err (List Line) :=
  match fsLookup fs p with
  | some c => .ok c
  | Option.none => .error "FileNotFoundError"

/-- `os.remove(p)`. -/
def fsRemove (fs : FS) (p : String) : Except Err FS :=
  match fsLookup fs p with
  | some _ => .ok (fs.filter (fun qc => qc.1 ≠ p))
  | Option.none => .error "FileNotFoundError"

/-- `shutil.copyfile(src, dst)`. -/
def copyfile (fs : FS) (src dst : String) : Except Err FS := do
  let c ← fsRead fs src
  pure (fsWrite fs dst c)

namespace TitleBlockParser

/-- `TitleBlockParser.backup_filename`. -/
def backup_filename (f : String) : String := f ++ ".ki-pa.bak"

/-- `TitleBlockParser.update_file(infile, outfile, upd)` on the file
system. -/
def update_file (fs : FS) (infile outfile : String) (upd : TBDict) :
    Except Err FS := do
  let lines ← fsRead fs infile
  pure (fsWrite fs outfile (updateLines lines upd))

/-- `TitleBlockParser.update_file_inplace_with_backup`. -/
def update_file_inplace_with_backup (fs : FS) (f : String) (upd : TBDict) :
    Except Err FS := do
  let fs1 ← copyfile fs f (backup_filename f)
  update_file fs1 f f upd

/-- `TitleBlockParser.restore_backup`. -/
def restore_backup (fs : FS) (f : String) : Except Err FS := do
  let fs1 ← copyfile fs (backup_filename f) f
  fsRemove fs1 (backup_filename f)

end TitleBlockParser

/-! ## Derived definitions and property statements used by the proofs -/

/-- A word produced by `splitWs`: nonempty and whitespace-free. -/
def WordOK (w : List Char) : Prop := w ≠ [] ∧ ∀ c ∈ w, pyWs c = false

/-- Adjacent characters are not both spaces. -/
def NoSS (a b : Char) : Prop := ¬(a = ' ' ∧ b = ' ')

def VMid (l : List Char) : Prop :=
  (∀ c ∈ l, pyWs c = true → c = ' ') ∧ l.Chain' NoSS

/-- Head and last characters (when present) are not whitespace. -/
def EndsNonWs (s : List Char) : Prop :=
  (∀ c, s.head? = some c → pyWs c = false) ∧
  (∀ c, s.getLast? = some c → pyWs c = false)

/-- Normal form of a value stored by the title-block parser: it is
`' '.join(parts).strip('()"')` for a nonempty list of whitespace-split
words. -/
def VNF (v : List Char) : Prop :=
  ∃ parts, parts ≠ [] ∧ (∀ w ∈ parts, WordOK w) ∧ v = stripPV (joinSp parts)

namespace TitleBlockParser

def openLine : Line := "  (title_block\n".data

def closeLine : Line := "  )\n".data

/-- Invariant of the accumulated title-block mapping: keys are
whitespace-free, values are in normal form, keys are distinct. -/
def DataOK (d : TBDict) : Prop :=
  (∀ kv ∈ d, (∀ c ∈ kv.1, pyWs c = false) ∧ VNF kv.2) ∧
  (d.map Prod.fst).Nodup

end TitleBlockParser

/-- `assert v is not None` followed by a continuation. -/
def ifNotNone {α : Type} (v : PyVal) (k : Except Err α) : Except Err α :=
  match v with
  | .none => .error "AssertionError"
  | _ => k

/-- The non-extends branch of the `for symbol in symbols` body of
`extract_symbols_to_pins_map`. -/
def pinsSymbolGo (m : List (PyKey × List Pin)) (symbol symbol_name : PyVal) :
    Except Err (List (PyKey × List Pin)) :=
  pyGetAttrGet symbol "symbol" >>= fun subsymbols =>
  List.foldlM readSubsymbolPins []
      (match subsymbols with | .lst xs => xs | v => [v]) >>= fun pins =>
  decoratePins pins >>= fun dec =>
  toKey symbol_name >>= fun k =>
  pure (kSet m k ((sortByKey dec).map (fun kp => kp.2)))

/-- `pinsSymbol` written with explicit binds (definitionally equal). -/
def pinsSymbolE (m : List (PyKey × List Pin)) (symbol : PyVal) :
    Except Err (List (PyKey × List Pin)) :=
  pyGetAttrGet symbol "positional" >>= fun pos =>
  ifNotNone pos (
    pyGetItem symbol "positional" >>= fun posv =>
    pyLen posv >>= fun n =>
    if n == 0 then .error "AssertionError"
    else
      pyIdx posv 0 >>= fun symbol_name =>
      pyGetAttrGet symbol "property" >>= fun prop =>
      ifNotNone prop (
        pyGetAttrGet symbol "extends" >>= fun ext =>
        match ext with
        | PyVal.none => pinsSymbolGo m symbol symbol_name
        | _ => pure m))

/-- A pin list is sorted numerically: it is the projection of a decorated
list whose integer keys are nondecreasing and each key is `int(pin.number)`
of its pin. -/
def SortedByNumber (pins : List Pin) : Prop :=
  ∃ dec : List (Int × Pin),
    pins = dec.map (fun kp => kp.2) ∧
    dec.Pairwise (fun a b => a.1 ≤ b.1) ∧
    ∀ kp ∈ dec, pyInt kp.2.number = .ok kp.1

/-- A folded pin node with the given name and number. -/
def mkpinC5 (nm num : String) : PyVal :=
  .dict [("tag", .str "pin"),
         ("positional", .lst [.str "passive", .str "line"]),
         ("at", .lst [.str "1.27", .str "0", .str "90"]),
         ("name", .dict [("tag", .str "name"),
                         ("positional", .lst [.str nm])]),
         ("number", .dict [("tag", .str "number"),
                           ("positional", .lst [.str num])])]

/-- A folded library with one symbol whose pins are numbered 2, 10, 1 in
source order. -/
def pinsWitnessTree : PyVal :=
  .dict [("tag", .str "kicad_symbol_lib"),
    ("symbol", .dict [
      ("tag", .str "symbol"),
      ("positional", .lst [.str "R1"]),
      ("property", .dict [("tag", .str "property"),
                          ("positional", .lst [.str "Reference", .str "R"])]),
      ("symbol", .dict [
        ("tag", .str "symbol"),
        ("positional", .lst [.str "R1_1_1"]),
        ("pin", .lst [mkpinC5 "a" "2", mkpinC5 "b" "10", mkpinC5 "c" "1"])])])]

def pinC5 (nm num : String) : Pin :=
  ⟨.str nm, .str num, .str "passive", 90, "1.27", "0"⟩

/-- An extending symbol node: passes both asserts, carries `extends`. -/
def sC6 : List (String × PyVal) :=
  [("tag", .str "symbol"), ("positional", .lst [.str "R_EXT"]),
   ("property", .dict [("tag", .str "property"),
                       ("positional", .lst [.str "Reference", .str "R"])]),
   ("extends", .str "R_BASE")]

/-- A non-extending symbol node that passes both asserts but has no
`symbol` sub-children. -/
def sC10 : List (String × PyVal) :=
  [("tag", .str "symbol"), ("positional", .lst [.str "R2"]),
   ("property", .dict [("tag", .str "property"),
                       ("positional", .lst [.str "Reference", .str "R"])])]

/-! ### A declarative grammar of well-formed S-expression inputs

Used to state what `parse_sexpr` accepts: a malformed input (unbalanced
parentheses, a bare character outside the atom class, an unterminated
quoted string, tokens trailing the first balanced group) falls outside
`WellFormedSexpr`, so soundness of the parser with respect to this grammar
says every such input is rejected. The grammar is deliberately generous
(it does not demand maximal atom runs or restrict single quotes to
iteration boundaries); soundness into it still excludes every malformed
class above. -/

/-- Nothing but token whitespace. -/
def wsOnly (l : List Char) : Prop := ∀ c ∈ l, tokWs c = true

/-- Declarative well-formedness of a quoted-string body for quote `q`: a
concatenation of the pyparsing regex alternatives (plain character, doubled
quote, hex escape, single-character escape). -/
inductive QBodyWF (q : Char) : List Char → Prop where
  | nil : QBodyWF q []
  | chr {c : Char} {l : List Char} : c ≠ q → c ≠ '\\' → c ≠ '\n' → c ≠ '\r' →
      QBodyWF q l → QBodyWF q (c :: l)
  | dbl {l : List Char} : QBodyWF q l → QBodyWF q (q :: q :: l)
  | esc {c : Char} {l : List Char} : c ≠ 'x' → QBodyWF q l →
      QBodyWF q ('\\' :: c :: l)
  | escx {hex l : List Char} : hex ≠ [] → (∀ c ∈ hex, isHexCh c = true) →
      QBodyWF q l → QBodyWF q ('\\' :: 'x' :: (hex ++ l))

/-- Declarative well-formedness of a group interior: an interleaving of
whitespace, atom-class characters, terminated quoted strings with
well-formed bodies, and balanced subgroups. -/
inductive ElemsWF : List Char → Prop where
  | nil : ElemsWF []
  | ws {c : Char} {l : List Char} : tokWs c = true → ElemsWF l →
      ElemsWF (c :: l)
  | atom {c : Char} {l : List Char} : atomChar c = true → ElemsWF l →
      ElemsWF (c :: l)
  | quoted {q : Char} {b l : List Char} : (q = '"' ∨ q = '\'') → QBodyWF q b →
      ElemsWF l → ElemsWF (q :: (b ++ q :: l))
  | group {b l : List Char} : ElemsWF b → ElemsWF l →
      ElemsWF ('(' :: (b ++ ')' :: l))

/-- A well-formed S-expression input: exactly one balanced group with a
well-formed interior, surrounded by whitespace only. -/
def WellFormedSexpr (s : List Char) : Prop :=
  ∃ w1 body w2, s = w1 ++ '(' :: (body ++ ')' :: w2) ∧
    wsOnly w1 ∧ ElemsWF body ∧ wsOnly w2

/-- The body of one `parseElems` step on already-whitespace-skipped input
(definitionally, `parseElems (fuel + 1) isRun cs0 =
parseElemsStep fuel isRun (skipTokWs cs0)`). -/
def parseElemsStep (fuel : Nat) (isRun : Bool) (cs : List Char) :
    Except Err (List Tree × List Char) :=
  if isRun then
    match cs with
    | c :: _ =>
      if atomChar c then
        match parseElems fuel true (cs.dropWhile atomChar) with
        | .ok (ts, r) =>
          .ok (.atom (String.mk (cs.takeWhile atomChar)) :: ts, r)
        | .error e => .error e
      else
        match matchQuote '"' fuel cs with
        | some (b, r) =>
          match parseElems fuel true r with
          | .ok (ts, r2) => .ok (.atom (String.mk b) :: ts, r2)
          | .error e => .error e
        | Option.none => parseElems fuel false cs
    | [] => parseElems fuel false cs
  else
    match matchQuote '"' fuel cs with
    | some (b, r) =>
      match parseElems fuel false r with
      | .ok (ts, r2) => .ok (.atom (String.mk ('"' :: b ++ ['"'])) :: ts, r2)
      | .error e => .error e
    | Option.none =>
      match matchQuote '\'' fuel cs with
      | some (b, r) =>
        match parseElems fuel false r with
        | .ok (ts, r2) => .ok (.atom (String.mk ('\'' :: b ++ ['\''])) :: ts, r2)
        | .error e => .error e
      | Option.none =>
        match cs with
        | '(' :: rest =>
          match parseElems fuel false rest with
          | .ok (children, r) =>
            match r with
            | ')' :: r2 =>
              match parseElems fuel false r2 with
              | .ok (ts, r3) => .ok (.node children :: ts, r3)
              | .error e => .error e
            | _ => .error "ParseException"
          | .error e => .error e
        | c :: _ =>
          if atomChar c then parseElems fuel true cs
          else .ok ([], cs)
        | [] => .ok ([], cs)

/-! ## Generic lemmas: `dropWhile`, `trimBoth` -/

theorem dropWhile_of_all {p : Char → Bool} {a : List Char} (b : List Char)
    (ha : ∀ c ∈ a, p c = true) :
    (a ++ b).dropWhile p = b.dropWhile p := by
  induction a with
  | nil => rfl
  | cons c a ih =>
    simp only [List.cons_append, List.dropWhile_cons, ha c (by simp)]
    exact ih (fun x hx => ha x (by simp [hx]))

theorem dropWhile_all_nil {p : Char → Bool} {a : List Char}
    (ha : ∀ c ∈ a, p c = true) : a.dropWhile p = [] := by
  have := dropWhile_of_all (p := p) (a := a) [] ha
  simpa using this

theorem dropWhile_cons_neg {p : Char → Bool} {c : Char} (l : List Char)
    (h : p c = false) : (c :: l).dropWhile p = c :: l := by
  simp [List.dropWhile_cons, h]

theorem dropWhile_head_neg {p : Char → Bool} :
    ∀ {l t : List Char} {c : Char}, l.dropWhile p = c :: t → p c = false := by
  intro l
  induction l with
  | nil => intro t c h; simp [List.dropWhile] at h
  | cons a l ih =>
    intro t c h
    by_cases hpa : p a = true
    · rw [List.dropWhile_cons, if_pos hpa] at h
      exact ih h
    · rw [List.dropWhile_cons, if_neg hpa] at h
      cases h
      simpa using hpa

theorem dropWhile_append_of_ne_nil {p : Char → Bool} {a : List Char}
    (b : List Char) (h : a.dropWhile p ≠ []) :
    (a ++ b).dropWhile p = a.dropWhile p ++ b := by
  rw [List.dropWhile_append]
  simp [List.isEmpty_iff, h]

/-- `trimBoth` of a string whose core is already trimmed on both sides,
surrounded by droppable characters. -/
theorem trim_sandwich {p : Char → Bool} {a m b : List Char}
    (ha : ∀ c ∈ a, p c = true) (hb : ∀ c ∈ b, p c = true)
    (h1 : m.dropWhile p = m) (h2 : m.reverse.dropWhile p = m.reverse) :
    trimBoth p (a ++ m ++ b) = m := by
  unfold trimBoth
  rw [List.append_assoc, dropWhile_of_all _ ha]
  cases m with
  | nil =>
    simp only [List.nil_append]
    rw [dropWhile_all_nil hb]
    rfl
  | cons c m' =>
    have hc : p c = false := by
      by_contra hcc
      have hcc' : p c = true := by
        cases hpc : p c
        · exact absurd hpc hcc
        · rfl
      rw [List.dropWhile_cons, if_pos hcc'] at h1
      have := congrArg List.length h1
      have hle := ((List.dropWhile_sublist (l := m') (p := p)).length_le)
      simp at this
      omega
    rw [dropWhile_append_of_ne_nil _ (by rw [h1]; simp), h1]
    rw [List.reverse_append]
    rw [dropWhile_of_all _ (by intro c hc2; exact hb c (List.mem_reverse.mp hc2))]
    rw [h2, List.reverse_reverse]

/-- `trimBoth` output is trimmed on the left. -/
theorem trimBoth_dropWhile {p : Char → Bool} (l : List Char) :
    (trimBoth p l).dropWhile p = trimBoth p l := by
  unfold trimBoth
  cases hA : l.dropWhile p with
  | nil => simp
  | cons c0 t0 =>
    have hc0 : p c0 = false := dropWhile_head_neg hA
    obtain ⟨pre, hpre⟩ : ((c0 :: t0 : List Char).reverse.dropWhile p) <:+
        (c0 :: t0 : List Char).reverse := List.dropWhile_suffix p
    cases hRc : (c0 :: t0 : List Char).reverse.dropWhile p with
    | nil => simp [hRc]
    | cons d u =>
      rw [hRc] at hpre
      have hrev : c0 :: t0 = (d :: u).reverse ++ pre.reverse := by
        have := congrArg List.reverse hpre
        simpa using this.symm
      have hne : (d :: u).reverse ≠ [] := by simp
      cases hdu : (d :: u).reverse with
      | nil => exact absurd hdu hne
      | cons e v =>
        rw [hdu] at hrev
        have he : e = c0 := by
          rw [List.cons_append] at hrev
          exact (List.cons.injEq _ _ _ _ ▸ hrev).1.symm
        subst he
        exact dropWhile_cons_neg _ hc0

/-- `trimBoth` output is trimmed on the right. -/
theorem trimBoth_reverse_dropWhile {p : Char → Bool} (l : List Char) :
    (trimBoth p l).reverse.dropWhile p = (trimBoth p l).reverse := by
  unfold trimBoth
  rw [List.reverse_reverse]
  exact List.dropWhile_idempotent p _

theorem trimBoth_idem {p : Char → Bool} (l : List Char) :
    trimBoth p (trimBoth p l) = trimBoth p l := by
  show (((trimBoth p l).dropWhile p).reverse.dropWhile p).reverse = trimBoth p l
  rw [trimBoth_dropWhile, trimBoth_reverse_dropWhile, List.reverse_reverse]

/-! ## `splitWs` / `joinSp` theory -/

theorem splitWsAux_word {w : List Char} (hw : ∀ c ∈ w, pyWs c = false) :
    ∀ (l acc : List Char), splitWsAux (w ++ l) acc = splitWsAux l (w.reverse ++ acc) := by
  induction w with
  | nil => intro l acc; simp
  | cons c w ih =>
    intro l acc
    have hc : pyWs c = false := hw c (by simp)
    simp only [List.cons_append, splitWsAux, hc]
    rw [if_neg (by simp)]
    show splitWsAux (w ++ l) (c :: acc) = splitWsAux l ((c :: w).reverse ++ acc)
    rw [ih (fun x hx => hw x (by simp [hx])) l (c :: acc)]
    simp

theorem splitWs_word {w : List Char} (hne : w ≠ [])
    (hw : ∀ c ∈ w, pyWs c = false) : splitWs w = [w] := by
  unfold splitWs
  have := splitWsAux_word hw [] []
  simp only [List.append_nil] at this
  rw [this]
  simp [splitWsAux, List.isEmpty_iff, hne]

theorem splitWs_word_space {w : List Char} (hne : w ≠ [])
    (hw : ∀ c ∈ w, pyWs c = false) (rest : List Char) :
    splitWs (w ++ ' ' :: rest) = w :: splitWs rest := by
  unfold splitWs
  rw [splitWsAux_word hw (' ' :: rest) []]
  simp only [List.append_nil, splitWsAux]
  rw [if_pos (by decide)]
  rw [if_neg (by simp [List.isEmpty_iff, hne])]
  simp

theorem splitWsAux_words {l : List Char} :
    ∀ acc, (∀ c ∈ acc, pyWs c = false) →
      ∀ w ∈ splitWsAux l acc, WordOK w := by
  induction l with
  | nil =>
    intro acc hacc w hFound
    simp only [splitWsAux] at hFound
    by_cases he : acc.isEmpty
    · simp [he] at hFound
    · rw [if_neg he] at hFound
      simp at hFound
      subst hFound
      refine ⟨by simpa [List.isEmpty_iff] using he, ?_⟩
      intro c hc
      exact hacc c (List.mem_reverse.mp hc)
  | cons c l ih =>
    intro acc hacc w hFound
    simp only [splitWsAux] at hFound
    by_cases hc : pyWs c
    · rw [if_pos hc] at hFound
      by_cases he : acc.isEmpty
      · rw [if_pos he] at hFound
        exact ih [] (by simp) w hFound
      · rw [if_neg he] at hFound
        rcases List.mem_cons.mp hFound with h | h
        · subst h
          refine ⟨by simpa [List.isEmpty_iff] using he, ?_⟩
          intro x hx
          exact hacc x (List.mem_reverse.mp hx)
        · exact ih [] (by simp) w h
    · rw [if_neg hc] at hFound
      refine ih (c :: acc) ?_ w hFound
      intro x hx
      rcases List.mem_cons.mp hx with h | h
      · subst h; simpa using hc
      · exact hacc x h

theorem splitWs_words {l : List Char} : ∀ w ∈ splitWs l, WordOK w :=
  splitWsAux_words [] (by simp)

theorem splitWsAux_ne_nil {l : List Char} :
    ∀ acc, acc ≠ [] → splitWsAux l acc ≠ [] := by
  induction l with
  | nil =>
    intro acc hacc
    simp [splitWsAux, List.isEmpty_iff, hacc]
  | cons c l ih =>
    intro acc hacc
    simp only [splitWsAux]
    by_cases hc : pyWs c
    · rw [if_pos hc, if_neg (by simp [List.isEmpty_iff, hacc])]
      simp
    · rw [if_neg hc]
      exact ih (c :: acc) (by simp)

theorem splitWs_ne_nil_of_head {c : Char} (l : List Char)
    (hc : pyWs c = false) : splitWs (c :: l) ≠ [] := by
  unfold splitWs
  simp only [splitWsAux, hc]
  rw [if_neg (by simp)]
  exact splitWsAux_ne_nil [c] (by simp)

theorem joinSp_cons_cons (w x : List Char) (xs : List (List Char)) :
    joinSp (w :: x :: xs) = w ++ ' ' :: joinSp (x :: xs) := rfl

theorem joinSp_cons_ne_nil {ws : List (List Char)} (w : List Char)
    (h : ws ≠ []) : joinSp (w :: ws) = w ++ ' ' :: joinSp ws := by
  cases ws with
  | nil => exact absurd rfl h
  | cons x xs => rfl

/-! ## The middle-of-line normal form `VMid`

`VMid l` says every whitespace character in `l` is a plain space and no two
spaces are adjacent. The values stored by the title-block parser satisfy it,
and together with non-whitespace endpoints it makes `joinSp ∘ splitWs` the
identity. -/

theorem VMid_nil : VMid [] := ⟨by simp, by simp⟩

theorem VMid_of_infix {a b : List Char} (h : b <:+: a) (hv : VMid a) : VMid b :=
  ⟨fun c hc hws => hv.1 c (h.mem hc) hws, List.Chain'.infix hv.2 h⟩

theorem VMid_reverse {l : List Char} (hv : VMid l) : VMid l.reverse := by
  refine ⟨fun c hc hws => hv.1 c (List.mem_reverse.mp hc) hws, ?_⟩
  rw [List.chain'_reverse]
  exact hv.2.imp (fun {a b} hab => by
    intro hba
    exact hab ⟨hba.2, hba.1⟩)

theorem VMid_dropWhile {p : Char → Bool} {l : List Char} (hv : VMid l) :
    VMid (l.dropWhile p) :=
  VMid_of_infix (List.dropWhile_suffix p).isInfix hv

theorem VMid_trimBoth {p : Char → Bool} {l : List Char} (hv : VMid l) :
    VMid (trimBoth p l) := by
  unfold trimBoth
  exact VMid_reverse (VMid_dropWhile (VMid_reverse (VMid_dropWhile hv)))

/-- All-whitespace-free strings satisfy `VMid`. -/
theorem VMid_of_wsFree {l : List Char} (h : ∀ c ∈ l, pyWs c = false) :
    VMid l := by
  refine ⟨fun c hc hws => absurd hws (by simp [h c hc]), ?_⟩
  induction l with
  | nil => simp
  | cons c l ih =>
    rw [List.chain'_cons']
    refine ⟨?_, ih (fun x hx => h x (by simp [hx]))⟩
    intro y hy hss
    have hc : pyWs c = false := h c (by simp)
    rw [hss.1] at hc
    simp [pyWs] at hc

/-- On strings in the `VMid` normal form with non-whitespace endpoints,
splitting on whitespace and re-joining with single spaces is the identity. -/
theorem joinSp_splitWs_aux :
    ∀ (n : Nat) (s : List Char), s.length ≤ n → VMid s → EndsNonWs s →
      joinSp (splitWs s) = s := by
  intro n
  induction n with
  | zero =>
    intro s hlen _ _
    have hs : s = [] := List.length_eq_zero.mp (Nat.le_zero.mp hlen)
    subst hs
    rfl
  | succ n ih =>
    intro s hlen hv he
    cases hs : s with
    | nil => rfl
    | cons c s' =>
      subst hs
      have hc : pyWs c = false := he.1 c rfl
      have hpc : (fun x => !pyWs x) c = true := by simp [hc]
      have hsplit : (c :: s').takeWhile (fun x => !pyWs x) ++
          (c :: s').dropWhile (fun x => !pyWs x) = c :: s' :=
        List.takeWhile_append_dropWhile _ _
      have hwne : (c :: s').takeWhile (fun x => !pyWs x) ≠ [] := by
        rw [List.takeWhile_cons, if_pos hpc]
        simp
      have hwfree : ∀ x ∈ (c :: s').takeWhile (fun x => !pyWs x), pyWs x = false := by
        intro x hx
        have := List.mem_takeWhile_imp hx
        simpa using this
      cases hr : (c :: s').dropWhile (fun x => !pyWs x) with
      | nil =>
        rw [hr, List.append_nil] at hsplit
        rw [hsplit] at hwfree
        rw [splitWs_word (by simp) hwfree]
        rfl
      | cons c2 r2 =>
        have hc2ws : pyWs c2 = true := by
          have := dropWhile_head_neg hr
          simpa using this
        have hc2mem : c2 ∈ c :: s' := by
          have hsuf : (c :: s').dropWhile (fun x => !pyWs x) <:+ c :: s' :=
            List.dropWhile_suffix _
          exact hsuf.subset (by rw [hr]; simp)
        have hc2 : c2 = ' ' := hv.1 c2 hc2mem hc2ws
        subst hc2
        cases r2 with
        | nil =>
          -- the line would end in a space, contradicting EndsNonWs
          exfalso
          rw [hr] at hsplit
          have : (c :: s').getLast? = some ' ' := by
            rw [← hsplit, List.getLast?_concat]
          have := he.2 ' ' this
          simp [pyWs] at this
        | cons c3 r3 =>
          rw [hr] at hsplit
          have hchain : List.Chain' NoSS (' ' :: c3 :: r3) := by
            refine List.Chain'.infix hv.2 ?_
            refine List.IsSuffix.isInfix ?_
            exact ⟨_, hsplit⟩
          have hc3 : pyWs c3 = false := by
            by_contra hcc
            have hcc' : pyWs c3 = true := by
              cases h3 : pyWs c3
              · exact absurd h3 hcc
              · rfl
            have h3sp : c3 = ' ' := hv.1 c3 (by rw [← hsplit]; simp) hcc'
            have := (List.chain'_cons.mp hchain).1
            exact this ⟨rfl, h3sp⟩
          have hss : splitWs (c :: s') =
              (c :: s').takeWhile (fun x => !pyWs x) :: splitWs (c3 :: r3) := by
            conv_lhs => rw [← hsplit]
            exact splitWs_word_space hwne hwfree _
          have hlen2 : (c3 :: r3).length ≤ n := by
            have hLs := congrArg List.length hsplit
            rw [List.length_append] at hLs
            have hw1 : 1 ≤ ((c :: s').takeWhile (fun x => !pyWs x)).length := by
              cases hq : (c :: s').takeWhile (fun x => !pyWs x) with
              | nil => exact absurd hq hwne
              | cons a b => simp
            simp only [List.length_cons] at hLs hlen ⊢
            omega
          have hIH : joinSp (splitWs (c3 :: r3)) = c3 :: r3 := by
            refine ih (c3 :: r3) hlen2 ?_ ?_
            · refine VMid_of_infix ?_ hv
              refine List.IsSuffix.isInfix ?_
              refine ⟨(c :: s').takeWhile (fun x => !pyWs x) ++ [' '], ?_⟩
              rw [List.append_assoc]
              simpa using hsplit
            · constructor
              · intro x hx
                cases hx
                exact hc3
              · intro x hx
                refine he.2 x ?_
                conv_lhs => rw [← hsplit]
                rw [show (c :: s').takeWhile (fun x => !pyWs x) ++ ' ' :: c3 :: r3 =
                  ((c :: s').takeWhile (fun x => !pyWs x) ++ [' ']) ++ c3 :: r3 by simp]
                rw [List.getLast?_append, hx]
                rfl
          rw [hss]
          cases hq : splitWs (c3 :: r3) with
          | nil => exact absurd hq (splitWs_ne_nil_of_head _ hc3)
          | cons x xs =>
            rw [joinSp_cons_cons]
            rw [← hq, hIH]
            exact hsplit

/-- Specialization to a convenient form. -/
theorem joinSp_splitWs (s : List Char) (hv : VMid s) (he : EndsNonWs s) :
    joinSp (splitWs s) = s :=
  joinSp_splitWs_aux s.length s (Nat.le_refl _) hv he

theorem joinSp_eq_append (x : List Char) (xs : List (List Char)) :
    ∃ t, joinSp (x :: xs) = x ++ t := by
  cases xs with
  | nil => exact ⟨[], by simp [joinSp]⟩
  | cons y ys => exact ⟨' ' :: joinSp (y :: ys), rfl⟩

theorem mem_of_getLast_eq {α : Type} : ∀ {l : List α} {a : α},
    l.getLast? = some a → a ∈ l := by
  intro l
  induction l with
  | nil => intro a h; simp at h
  | cons c l ih =>
    intro a h
    cases hl : l with
    | nil =>
      subst hl
      simp at h
      simp [h]
    | cons d t =>
      subst hl
      rw [List.getLast?_cons_cons] at h
      exact List.mem_cons_of_mem _ (ih h)

theorem VMid_joinSp : ∀ {parts : List (List Char)},
    (∀ w ∈ parts, WordOK w) → VMid (joinSp parts) := by
  intro parts
  induction parts with
  | nil => intro; exact VMid_nil
  | cons w ws ih =>
    intro h
    cases ws with
    | nil =>
      show VMid (joinSp [w])
      simp only [joinSp]
      exact VMid_of_wsFree (h w (by simp)).2
    | cons x xs =>
      rw [joinSp_cons_cons]
      have hw := h w (by simp)
      have hrest : VMid (joinSp (x :: xs)) := ih (fun u hu => h u (by simp [hu]))
      have hxhead : ∀ c, (joinSp (x :: xs)).head? = some c → pyWs c = false := by
        intro c hc
        obtain ⟨t, ht⟩ := joinSp_eq_append x xs
        rw [ht] at hc
        have hx := h x (by simp)
        cases hxc : x with
        | nil => exact absurd hxc hx.1
        | cons a b =>
          rw [hxc] at hc
          simp at hc
          rw [← hc]
          exact hx.2 a (by rw [hxc]; simp)
      constructor
      · intro c hc hws
        rcases List.mem_append.mp hc with h1 | h1
        · exact absurd hws (by simp [hw.2 c h1])
        · rcases List.mem_cons.mp h1 with h2 | h2
          · exact h2.symm ▸ rfl
          · exact hrest.1 c h2 hws
      · rw [List.chain'_append]
        refine ⟨VMid_of_wsFree hw.2 |>.2, ?_, ?_⟩
        · rw [List.chain'_cons']
          refine ⟨?_, hrest.2⟩
          intro y hy hss
          have := hxhead y hy
          rw [hss.2] at this
          simp [pyWs] at this
        · intro a ha y hy hss
          have hmem : a ∈ w := mem_of_getLast_eq ha
          have := hw.2 a hmem
          rw [hss.1] at this
          simp [pyWs] at this

/-- The wrapped value `'"' :: v ++ ['"', ')']` as written back by
`insert_title_block_data`, for a value in normal form: splitting and
re-joining is the identity, and stripping `'()"'` recovers `v`. -/
theorem value_roundtrip {v : List Char} (hvnf : VNF v) :
    joinSp (splitWs ('"' :: v ++ ['"', ')'])) = '"' :: v ++ ['"', ')'] ∧
    stripPV ('"' :: v ++ ['"', ')']) = v := by
  obtain ⟨parts, hne, hwords, hv⟩ := hvnf
  have hvmid : VMid v := hv ▸ VMid_trimBoth (VMid_joinSp hwords)
  have hdrop : v.dropWhile pvChar = v := by
    rw [hv]
    exact trimBoth_dropWhile _
  have hdropr : v.reverse.dropWhile pvChar = v.reverse := by
    rw [hv]
    exact trimBoth_reverse_dropWhile _
  constructor
  · refine joinSp_splitWs _ ?_ ?_
    · constructor
      · intro c hc hws
        rcases List.mem_cons.mp hc with h1 | h1
        · subst h1; simp [pyWs] at hws
        · rcases List.mem_append.mp h1 with h2 | h2
          · exact hvmid.1 c h2 hws
          · rcases List.mem_cons.mp h2 with h3 | h3
            · subst h3; simp [pyWs] at hws
            · simp at h3
              subst h3; simp [pyWs] at hws
      · show List.Chain' NoSS (['"'] ++ (v ++ ['"', ')']))
        rw [List.chain'_append]
        refine ⟨by simp, ?_, ?_⟩
        · rw [List.chain'_append]
          refine ⟨hvmid.2, by simp [List.chain'_cons, NoSS], ?_⟩
          intro a ha y hy hss
          -- y is the double quote, which is not a space
          simp at hy
          rw [hss.2] at hy
          simp at hy
        · intro a ha y hy hss
          -- a is the double quote, which is not a space
          simp at ha
          rw [hss.1] at ha
          simp at ha
    · constructor
      · intro c hc
        simp at hc
        subst hc
        decide
      · intro c hc
        rw [show ('"' :: v ++ ['"', ')'] : List Char) =
          ('"' :: v ++ ['"']) ++ [')'] by simp] at hc
        rw [List.getLast?_concat] at hc
        cases hc
        decide
  · have : ('"' :: v ++ ['"', ')'] : List Char) = ['"'] ++ v ++ ['"', ')'] := by simp
    rw [this]
    refine trim_sandwich (by decide) (by decide) hdrop hdropr

namespace TitleBlockParser

theorem tbBlockLines_eq (data : TBDict) :
    tbBlockLines data =
      openLine :: (data.map (fun kv => fieldLine kv.1 kv.2) ++ [closeLine]) := rfl

/-- The stripped form of a rewritten field line, with no assumptions on the
key or value. -/
theorem stripWs_fieldLine (k v : List Char) :
    stripWs (fieldLine k v) = '(' :: (k ++ ' ' :: '"' :: (v ++ ['"', ')'])) := by
  have h1 : ("     (".data : List Char) = [' ',' ',' ',' ',' '] ++ ['('] := rfl
  have h2 : (" \"".data : List Char) = [' ', '"'] := rfl
  have h3 : ("\")\n".data : List Char) = ['"', ')'] ++ ['\n'] := rfl
  have heq : fieldLine k v =
      [' ',' ',' ',' ',' '] ++ ('(' :: (k ++ ' ' :: '"' :: (v ++ ['"', ')']))) ++ ['\n'] := by
    unfold fieldLine
    rw [h1, h2, h3]
    simp
  rw [heq]
  unfold stripWs
  refine trim_sandwich (by decide) (by decide) ?_ ?_
  · exact dropWhile_cons_neg _ (by decide)
  · rw [show ('(' :: (k ++ ' ' :: '"' :: (v ++ ['"', ')'])) : List Char) =
      ('(' :: (k ++ ' ' :: '"' :: (v ++ ['"']))) ++ [')'] by simp]
    rw [List.reverse_append]
    exact dropWhile_cons_neg _ (by decide)

/-- A line whose stripped form contains the start marker sets both flags and
is not buffered. -/
theorem tbStep_marker {st : TBState} {line : Line}
    (h : isInfixB markerChars (stripWs line) = true) :
    tbStep st line = { st with found := true, inBlock := true } := by
  unfold tbStep
  simp [h]

/-- A non-marker line outside the block is buffered verbatim. -/
theorem tbStep_outside {fd : Bool} {d : TBDict} {b : List Line} {line : Line}
    (h : isInfixB markerChars (stripWs line) = false) :
    tbStep ⟨false, fd, d, b⟩ line = ⟨false, fd, d, b ++ [line]⟩ := by
  unfold tbStep
  simp [h, tbStepEnd]

/-- The closing line `  )\n` leaves the block. -/
theorem tbStep_close {fd : Bool} {d : TBDict} {b : List Line} :
    tbStep ⟨true, fd, d, b⟩ closeLine = ⟨false, fd, d, b⟩ := by
  unfold tbStep
  have hstrip : stripWs closeLine = [')'] := rfl
  have hmk : isInfixB markerChars (stripWs closeLine) = false := rfl
  have hsplit : splitWs (stripWs closeLine) = [[')']] := rfl
  rw [hmk]
  simp only [Bool.false_eq_true, if_false, hsplit, hstrip]
  rfl

/-- The opening line `  (title_block\n` is a marker line. -/
theorem tbStep_open {ib fd : Bool} {d : TBDict} {b : List Line} :
    tbStep ⟨ib, fd, d, b⟩ openLine = ⟨true, true, d, b⟩ :=
  tbStep_marker rfl

/-- Inside the block, a rewritten field line re-parses to exactly its
key/value pair, provided its text does not itself contain the start
marker. -/
theorem tbStep_fieldLine {fd : Bool} {d : TBDict} {b : List Line} {k v : Line}
    (hk : ∀ c ∈ k, pyWs c = false) (hvnf : VNF v)
    (hmk : isInfixB markerChars (stripWs (fieldLine k v)) = false) :
    tbStep ⟨true, fd, d, b⟩ (fieldLine k v) = ⟨true, fd, dSetL d k v, b⟩ := by
  have hstrip := stripWs_fieldLine k v
  have hkword : WordOK ('(' :: k) := ⟨by simp, by
    intro c hc
    rcases List.mem_cons.mp hc with h1 | h1
    · subst h1; decide
    · exact hk c h1⟩
  have hcore : ('(' :: (k ++ ' ' :: '"' :: (v ++ ['"', ')'])) : List Char) =
      ('(' :: k) ++ ' ' :: ('"' :: v ++ ['"', ')']) := by simp
  have hsplit : splitWs (stripWs (fieldLine k v)) =
      ('(' :: k) :: splitWs ('"' :: v ++ ['"', ')']) := by
    rw [hstrip, hcore]
    exact splitWs_word_space hkword.1 hkword.2 _
  obtain ⟨hjoin, hstripv⟩ := value_roundtrip hvnf
  have hqshape : ∃ q qs, splitWs ('"' :: v ++ ['"', ')']) = q :: qs := by
    cases hq : splitWs ('"' :: v ++ ['"', ')']) with
    | nil =>
      exact absurd hq (by
        rw [show ('"' :: v ++ ['"', ')'] : List Char) = '"' :: (v ++ ['"', ')']) by simp]
        exact splitWs_ne_nil_of_head _ (by decide))
    | cons q qs => exact ⟨q, qs, rfl⟩
  obtain ⟨q, qs, hq⟩ := hqshape
  have hne : stripWs (fieldLine k v) ≠ [')'] := by
    rw [hstrip]
    intro hcontra
    cases hcontra
  have hkey : ('(' :: k).drop 1 = k := by simp
  have hval : stripPV (joinSp (q :: qs)) = v := by
    rw [← hq, hjoin]
    exact hstripv
  unfold tbStep
  rw [hmk]
  simp only [Bool.false_eq_true, if_false, hsplit, hq]
  simp only [hkey, hval, tbStepEnd]
  simp [hne]

theorem tbStepEnd_found (st1 : TBState) (s : List Char) :
    (tbStepEnd st1 s).found = st1.found := by
  unfold tbStepEnd
  split <;> rfl

theorem tbStep_found (st : TBState) (line : Line) :
    (tbStep st line).found = (st.found || isInfixB markerChars (stripWs line)) := by
  unfold tbStep
  by_cases h : isInfixB markerChars (stripWs line) = true
  · simp [h]
  · simp only [Bool.not_eq_true] at h
    rw [h]
    simp only [Bool.false_eq_true, if_false, tbStepEnd_found, Bool.or_false]
    split
    · split <;> rfl
    · rfl

theorem runParse_found (lines : List Line) :
    ∀ st : TBState, (List.foldl tbStep st lines).found =
      (st.found || lines.any (fun l => isInfixB markerChars (stripWs l))) := by
  induction lines with
  | nil => intro st; simp
  | cons l ls ih =>
    intro st
    simp only [List.foldl_cons, List.any_cons]
    rw [ih, tbStep_found]
    simp [Bool.or_assoc]

theorem tbStepEnd_buffer (st1 : TBState) (s : List Char) :
    (tbStepEnd st1 s).buffer = st1.buffer := by
  unfold tbStepEnd
  split <;> rfl

theorem tbStepEnd_data (st1 : TBState) (s : List Char) :
    (tbStepEnd st1 s).data = st1.data := by
  unfold tbStepEnd
  split <;> rfl

/-- A line is added to the buffer only when it carries no start marker. -/
theorem tbStep_buffer (st : TBState) (line : Line) :
    (tbStep st line).buffer = st.buffer ∨
      ((tbStep st line).buffer = st.buffer ++ [line] ∧
        isInfixB markerChars (stripWs line) = false) := by
  unfold tbStep
  by_cases h : isInfixB markerChars (stripWs line) = true
  · left; simp [h]
  · simp only [Bool.not_eq_true] at h
    rw [h]
    simp only [Bool.false_eq_true, if_false, tbStepEnd_buffer]
    split
    · left
      split <;> rfl
    · right
      exact ⟨rfl, trivial⟩

theorem runParse_buffer_no_marker (lines : List Line) :
    ∀ st : TBState, (∀ l ∈ st.buffer, isInfixB markerChars (stripWs l) = false) →
      ∀ l ∈ (List.foldl tbStep st lines).buffer,
        isInfixB markerChars (stripWs l) = false := by
  induction lines with
  | nil => intro st h; exact h
  | cons x ls ih =>
    intro st h
    simp only [List.foldl_cons]
    refine ih (tbStep st x) ?_
    rcases tbStep_buffer st x with hb | ⟨hb, hx⟩
    · rw [hb]; exact h
    · rw [hb]
      intro l hl
      rcases List.mem_append.mp hl with h1 | h1
      · exact h l h1
      · simp at h1
        subst h1
        exact hx

/-- Folding non-marker lines from outside the block only extends the
buffer. -/
theorem foldl_outside {lines : List Line}
    (h : ∀ l ∈ lines, isInfixB markerChars (stripWs l) = false) :
    ∀ (fd : Bool) (d : TBDict) (b : List Line),
      List.foldl tbStep ⟨false, fd, d, b⟩ lines = ⟨false, fd, d, b ++ lines⟩ := by
  induction lines with
  | nil => intro fd d b; simp
  | cons l ls ih =>
    intro fd d b
    simp only [List.foldl_cons]
    rw [tbStep_outside (h l (by simp))]
    rw [ih (fun x hx => h x (by simp [hx])) fd d (b ++ [l])]
    simp

/-- Folding the rewritten field lines from inside the block accumulates
exactly the corresponding `dict` updates. -/
theorem foldl_fields {M : TBDict}
    (h : ∀ kv ∈ M, (∀ c ∈ kv.1, pyWs c = false) ∧ VNF kv.2 ∧
      isInfixB markerChars (stripWs (fieldLine kv.1 kv.2)) = false) :
    ∀ (fd : Bool) (d : TBDict) (b : List Line),
      List.foldl tbStep ⟨true, fd, d, b⟩ (M.map (fun kv => fieldLine kv.1 kv.2)) =
        ⟨true, fd, List.foldl (fun acc kv => dSetL acc kv.1 kv.2) d M, b⟩ := by
  induction M with
  | nil => intro fd d b; simp
  | cons kv M ih =>
    intro fd d b
    obtain ⟨hk, hvnf, hmk⟩ := h kv (by simp)
    simp only [List.map_cons, List.foldl_cons]
    rw [tbStep_fieldLine hk hvnf hmk]
    exact ih (fun x hx => h x (by simp [hx])) fd (dSetL d kv.1 kv.2) b

end TitleBlockParser

/-! ## `dSetL` dictionary lemmas -/

theorem dSetL_mem {d : TBDict} {k v : Line} :
    ∀ kv ∈ dSetL d k v, kv ∈ d ∨ kv = (k, v) := by
  induction d with
  | nil => intro kv h; simp [dSetL] at h; right; exact h
  | cons x d ih =>
    intro kv h
    unfold dSetL at h
    by_cases he : x.1 = k
    · rw [if_pos he] at h
      rcases List.mem_cons.mp h with h1 | h1
      · right; rw [h1, he]
      · left; exact List.mem_cons_of_mem _ h1
    · rw [if_neg he] at h
      rcases List.mem_cons.mp h with h1 | h1
      · left; rw [h1]; simp
      · rcases ih kv h1 with h2 | h2
        · left; exact List.mem_cons_of_mem _ h2
        · right; exact h2

theorem dSetL_of_fresh {d : TBDict} {k v : Line}
    (h : ∀ kv ∈ d, kv.1 ≠ k) : dSetL d k v = d ++ [(k, v)] := by
  induction d with
  | nil => rfl
  | cons x d ih =>
    unfold dSetL
    rw [if_neg (h x (by simp))]
    rw [ih (fun kv hkv => h kv (by simp [hkv]))]
    rfl

theorem keys_dSetL (d : TBDict) (k v : Line) :
    (dSetL d k v).map Prod.fst = d.map Prod.fst ∨
      (dSetL d k v).map Prod.fst = d.map Prod.fst ++ [k] := by
  induction d with
  | nil => right; rfl
  | cons x d ih =>
    unfold dSetL
    by_cases he : x.1 = k
    · left; rw [if_pos he]; simp [he]
    · rw [if_neg he]
      rcases ih with h1 | h1
      · left; simp [h1]
      · right; simp [h1]

theorem nodup_keys_dSetL {d : TBDict} {k v : Line}
    (h : (d.map Prod.fst).Nodup) : ((dSetL d k v).map Prod.fst).Nodup := by
  induction d with
  | nil => simp [dSetL]
  | cons x d ih =>
    unfold dSetL
    by_cases he : x.1 = k
    · rw [if_pos he]
      simpa using h
    · rw [if_neg he]
      simp only [List.map_cons, List.nodup_cons] at h ⊢
      refine ⟨?_, ih h.2⟩
      intro hx
      rcases keys_dSetL d k v with h1 | h1
      · rw [h1] at hx
        exact h.1 hx
      · rw [h1] at hx
        rcases List.mem_append.mp hx with h2 | h2
        · exact h.1 h2
        · simp at h2
          exact he h2

theorem foldl_dSetL_fresh {M : TBDict} :
    ∀ {d : TBDict}, (M.map Prod.fst).Nodup →
      (∀ kv ∈ M, ∀ kv2 ∈ d, kv.1 ≠ kv2.1) →
      List.foldl (fun acc kv => dSetL acc kv.1 kv.2) d M = d ++ M := by
  induction M with
  | nil => intro d _ _; simp
  | cons kv M ih =>
    intro d hnd hdisj
    simp only [List.foldl_cons]
    have hfresh : dSetL d kv.1 kv.2 = d ++ [kv] := by
      rw [dSetL_of_fresh (fun kv2 hkv2 => (hdisj kv (by simp) kv2 hkv2).symm)]
    rw [hfresh]
    simp only [List.map_cons, List.nodup_cons] at hnd
    rw [ih hnd.2 ?_]
    · simp
    · intro x hx kv2 hkv2
      rcases List.mem_append.mp hkv2 with h1 | h1
      · exact hdisj x (by simp [hx]) kv2 h1
      · simp at h1
        rw [h1]
        intro hcontra
        exact hnd.1 (hcontra ▸ List.mem_map_of_mem Prod.fst hx)

namespace TitleBlockParser

/-- Each step either keeps the mapping or performs one `dict` update whose
key/value comes from splitting the stripped line. -/
theorem tbStep_data (st : TBState) (line : Line) :
    (tbStep st line).data = st.data ∨
      ∃ p0 p1 rest, splitWs (stripWs line) = p0 :: p1 :: rest ∧
        (tbStep st line).data =
          dSetL st.data (p0.drop 1) (stripPV (joinSp (p1 :: rest))) := by
  unfold tbStep
  by_cases h : isInfixB markerChars (stripWs line) = true
  · left; simp [h]
  · simp only [Bool.not_eq_true] at h
    rw [h]
    simp only [Bool.false_eq_true, if_false, tbStepEnd_data]
    by_cases hib : st.inBlock = true
    · rw [if_pos hib]
      cases hsp : splitWs (stripWs line) with
      | nil => left; rfl
      | cons p0 rest0 =>
        cases rest0 with
        | nil => left; rfl
        | cons p1 rest =>
          right
          exact ⟨p0, p1, rest, rfl, rfl⟩
    · rw [if_neg hib]
      left
      rfl

theorem tbStep_dataOK {st : TBState} {line : Line} (h : DataOK st.data) :
    DataOK (tbStep st line).data := by
  rcases tbStep_data st line with hd | ⟨p0, p1, rest, hsp, hd⟩
  · rw [hd]; exact h
  · rw [hd]
    constructor
    · intro kv hkv
      rcases dSetL_mem kv hkv with h1 | h1
      · exact h.1 kv h1
      · subst h1
        constructor
        · intro c hc
          have hp0 : WordOK p0 := splitWs_words p0 (by rw [hsp]; simp)
          exact hp0.2 c (List.mem_of_mem_drop hc)
        · refine ⟨p1 :: rest, by simp, ?_, rfl⟩
          intro w hw
          refine splitWs_words (l := stripWs line) w ?_
          rw [hsp]
          exact List.mem_cons_of_mem _ hw
    · exact nodup_keys_dSetL h.2

theorem runParse_dataOK (lines : List Line) :
    ∀ st : TBState, DataOK st.data → DataOK (List.foldl tbStep st lines).data := by
  induction lines with
  | nil => intro st h; exact h
  | cons l ls ih =>
    intro st h
    simp only [List.foldl_cons]
    exact ih _ (tbStep_dataOK h)

/-- The parsed mapping is well formed. -/
theorem parse_dataOK {lines : List Line} {M : TBDict}
    (h : parse lines = some M) : DataOK M := by
  unfold parse at h
  by_cases hf : (runParse lines).found = true
  · rw [if_pos hf] at h
    cases h
    exact runParse_dataOK lines initState ⟨by simp [initState], by simp [initState]⟩
  · rw [if_neg hf] at h
    cases h

/-- Decomposition of `insert_title_block_data` at the first line containing
the UUID marker. -/
theorem insertTB_decomp {B : List Line} (M : TBDict)
    (h : ∃ u ∈ B, isInfixB uuidChars (stripWs u) = true) :
    ∃ B1 u B2, B = B1 ++ u :: B2 ∧
      (∀ l ∈ B1, isInfixB uuidChars (stripWs l) = false) ∧
      isInfixB uuidChars (stripWs u) = true ∧
      insertTB M B = B1 ++ u :: (tbBlockLines M ++ B2) := by
  induction B with
  | nil => simp at h
  | cons l ls ih =>
    by_cases hl : isInfixB uuidChars (stripWs l) = true
    · refine ⟨[], l, ls, rfl, by simp, hl, ?_⟩
      unfold insertTB
      rw [if_pos hl]
      rfl
    · simp only [Bool.not_eq_true] at hl
      obtain ⟨u, hu, huu⟩ := h
      rcases List.mem_cons.mp hu with h1 | h1
      · subst h1
        rw [huu] at hl
        cases hl
      · obtain ⟨B1, u2, B2, hB, hB1, hu2, hins⟩ := ih ⟨u, h1, huu⟩
        refine ⟨l :: B1, u2, B2, by rw [hB]; rfl, ?_, hu2, ?_⟩
        · intro x hx
          rcases List.mem_cons.mp hx with h2 | h2
          · subst h2; exact hl
          · exact hB1 x h2
        · unfold insertTB
          rw [if_neg (by simp [hl])]
          rw [hins]
          rfl

end TitleBlockParser

/-! ## Claim C3: title-block round trip -/

open TitleBlockParser in
/-- C3 (amended): for every input file whose title block parses to the
mapping `M`, provided the buffered lines contain a UUID-marker line and no
rewritten field line itself contains the `(title_block` start marker,
`parse` followed by `insert_title_block_data M` produces output whose
re-parsed title block equals `M` field-for-field and whose non-title-block
lines are byte-identical to the original ones. -/
theorem C3_roundtrip (f : List Line) (M : TBDict)
    (hM : parse f = some M)
    (huuid : ∃ u ∈ linesWithoutTitleBlock f,
      isInfixB uuidChars (stripWs u) = true)
    (hsafe : ∀ kv ∈ M,
      isInfixB markerChars (stripWs (fieldLine kv.1 kv.2)) = false) :
    parse (insertTB M (linesWithoutTitleBlock f)) = some M ∧
    linesWithoutTitleBlock (insertTB M (linesWithoutTitleBlock f)) =
      linesWithoutTitleBlock f := by
  have hdata := parse_dataOK hM
  have hbuf : ∀ l ∈ linesWithoutTitleBlock f,
      isInfixB markerChars (stripWs l) = false := by
    intro l hl
    exact runParse_buffer_no_marker f initState (by simp [initState]) l hl
  obtain ⟨B1, u, B2, hBdec, hB1, hu, hins⟩ := insertTB_decomp M huuid
  have hB1mk : ∀ l ∈ B1, isInfixB markerChars (stripWs l) = false := by
    intro l hl
    exact hbuf l (by rw [hBdec]; simp [hl])
  have humk : isInfixB markerChars (stripWs u) = false :=
    hbuf u (by rw [hBdec]; simp)
  have hB2mk : ∀ l ∈ B2, isInfixB markerChars (stripWs l) = false := by
    intro l hl
    exact hbuf l (by rw [hBdec]; simp [hl])
  have hfields : ∀ kv ∈ M, (∀ c ∈ kv.1, pyWs c = false) ∧ VNF kv.2 ∧
      isInfixB markerChars (stripWs (fieldLine kv.1 kv.2)) = false := by
    intro kv hkv
    exact ⟨(hdata.1 kv hkv).1, (hdata.1 kv hkv).2, hsafe kv hkv⟩
  have hMfold : List.foldl (fun acc kv => dSetL acc kv.1 kv.2) [] M = M := by
    have := foldl_dSetL_fresh (M := M) (d := []) hdata.2 (by simp)
    simpa using this
  have hout2 : insertTB M (linesWithoutTitleBlock f) =
      B1 ++ (u :: openLine ::
        (M.map (fun kv => fieldLine kv.1 kv.2) ++ (closeLine :: B2))) := by
    rw [hins, tbBlockLines_eq]
    simp
  have hrun : runParse (insertTB M (linesWithoutTitleBlock f)) =
      ⟨false, true, M, B1 ++ u :: B2⟩ := by
    unfold runParse
    rw [hout2, List.foldl_append]
    rw [show initState = (⟨false, false, [], []⟩ : TBState) from rfl]
    rw [foldl_outside hB1mk]
    simp only [List.foldl_cons]
    rw [tbStep_outside humk, tbStep_open, List.foldl_append]
    rw [foldl_fields hfields, hMfold]
    simp only [List.foldl_cons]
    rw [tbStep_close]
    rw [foldl_outside hB2mk]
    simp
  constructor
  · show (if (runParse (insertTB M (linesWithoutTitleBlock f))).found = true
        then some (runParse (insertTB M (linesWithoutTitleBlock f))).data
        else Option.none) = some M
    rw [hrun]
    rfl
  · show (runParse (insertTB M (linesWithoutTitleBlock f))).buffer =
      linesWithoutTitleBlock f
    rw [hrun, hBdec]

open TitleBlockParser in
/-- C3 counterexample: a title-block field whose key regains the start
marker when rewritten (`Xtitle_block` parses to key `title_block`, printed
back as `(title_block "v")`), so the round trip loses the field. -/
theorem C3_counterexample :
    parse ["  (uuid deadbeef)\n".data, "  (title_block\n".data,
        "    Xtitle_block \"v\"\n".data, "  )\n".data] =
      some [("title_block".data, "v".data)] ∧
    parse (insertTB [("title_block".data, "v".data)]
        (linesWithoutTitleBlock
          ["  (uuid deadbeef)\n".data, "  (title_block\n".data,
           "    Xtitle_block \"v\"\n".data, "  )\n".data])) = some [] ∧
    some ([] : TBDict) ≠ some [("title_block".data, "v".data)] :=
  ⟨rfl, rfl, by decide⟩

/-! ## Claim C7: the not-found sentinel -/

open TitleBlockParser in
/-- C7: `parse` returns the not-found sentinel `None` exactly when no line
of the file contains the title-block start marker, and this sentinel is
distinct from the empty mapping returned for a present-but-empty title
block. -/
theorem C7_not_found_sentinel :
    (∀ f : List Line, parse f = Option.none ↔
      ∀ l ∈ f, isInfixB markerChars (stripWs l) = false) ∧
    parse ["(uuid x)\n".data, "(title_block\n".data, ")\n".data] = some [] ∧
    (Option.none : Option TBDict) ≠ some [] := by
  refine ⟨?_, rfl, by decide⟩
  intro f
  show (if (runParse f).found = true then some (runParse f).data
    else Option.none) = Option.none ↔ _
  unfold runParse
  rw [runParse_found f]
  by_cases h : (f.any fun l => isInfixB markerChars (stripWs l)) = true
  · rw [show (initState.found || f.any fun l => isInfixB markerChars (stripWs l)) = true by
      simp [initState, h]]
    simp only [if_true]
    constructor
    · intro hc
      cases hc
    · intro hall
      obtain ⟨l, hl, hml⟩ := List.any_eq_true.mp h
      rw [hall l hl] at hml
      cases hml
  · have h2 : (f.any fun l => isInfixB markerChars (stripWs l)) = false := by
      cases hq : f.any fun l => isInfixB markerChars (stripWs l)
      · rfl
      · exact absurd hq h
    rw [show (initState.found || f.any fun l => isInfixB markerChars (stripWs l)) = false by
      simp [initState, h2]]
    simp only [Bool.false_eq_true, if_false, true_iff]
    intro l hl
    have := List.any_eq_false.mp h2 l hl
    simpa using this

/-! ## Claim C9: `update_file` on a file without a title block -/

open TitleBlockParser in
/-- Helper: a file with no marker line parses to the not-found sentinel
and buffers every line verbatim. -/
theorem runParse_no_marker {f : List Line}
    (hnomk : ∀ l ∈ f, isInfixB markerChars (stripWs l) = false) :
    runParse f = ⟨false, false, [], f⟩ := by
  unfold runParse
  have := foldl_outside hnomk false [] []
  rw [show initState = (⟨false, false, [], []⟩ : TBState) from rfl]
  simpa using this

open TitleBlockParser in
/-- C9: on a file with a UUID-marker line but no title block, `update_file`
does not fail: the not-found sentinel is coerced to an empty mapping, and
the output contains a freshly created title block holding exactly the
caller-supplied override fields, inserted right after the first UUID line.
Moreover inserting an empty title block anywhere in the file leaves the
output of `update_file` unchanged, so the not-found/found-but-empty
distinction is not observable through it. -/
theorem C9_update_file_creates_block (f : List Line) (upd : TBDict)
    (hnomk : ∀ l ∈ f, isInfixB markerChars (stripWs l) = false)
    (hnd : (upd.map Prod.fst).Nodup)
    (huuid : ∃ u ∈ f, isInfixB uuidChars (stripWs u) = true) :
    parse f = Option.none ∧
    (∃ F1 u F2, f = F1 ++ u :: F2 ∧
      (∀ l ∈ F1, isInfixB uuidChars (stripWs l) = false) ∧
      isInfixB uuidChars (stripWs u) = true ∧
      updateLines f upd = F1 ++ u :: (tbBlockLines upd ++ F2)) ∧
    (∀ p q, f = p ++ q →
      updateLines (p ++ openLine :: closeLine :: q) upd = updateLines f upd) := by
  have hrun : runParse f = ⟨false, false, [], f⟩ := runParse_no_marker hnomk
  have hparse : parse f = Option.none := by
    show (if (runParse f).found = true then some (runParse f).data
      else Option.none) = Option.none
    rw [hrun]
    rfl
  have hbuf : linesWithoutTitleBlock f = f := by
    show (runParse f).buffer = f
    rw [hrun]
  have hupd : dictUpdate [] upd = upd := by
    unfold dictUpdate
    have := foldl_dSetL_fresh (M := upd) (d := []) hnd (by simp)
    simpa using this
  have hulines : updateLines f upd = insertTB upd f := by
    unfold updateLines
    rw [hparse, hbuf, hupd]
  refine ⟨hparse, ?_, ?_⟩
  · obtain ⟨F1, u, F2, hdec, hF1, hu, hins⟩ := insertTB_decomp upd huuid
    exact ⟨F1, u, F2, hdec, hF1, hu, by rw [hulines, hins]⟩
  · intro p q hpq
    have hp : ∀ l ∈ p, isInfixB markerChars (stripWs l) = false := by
      intro l hl
      exact hnomk l (by rw [hpq]; simp [hl])
    have hq : ∀ l ∈ q, isInfixB markerChars (stripWs l) = false := by
      intro l hl
      exact hnomk l (by rw [hpq]; simp [hl])
    have hrunG : runParse (p ++ openLine :: closeLine :: q) =
        ⟨false, true, [], p ++ q⟩ := by
      unfold runParse
      rw [List.foldl_append]
      rw [show initState = (⟨false, false, [], []⟩ : TBState) from rfl]
      rw [foldl_outside hp]
      simp only [List.foldl_cons]
      rw [tbStep_open, tbStep_close]
      rw [foldl_outside hq]
      simp
    have hparseG : parse (p ++ openLine :: closeLine :: q) = some [] := by
      show (if (runParse (p ++ openLine :: closeLine :: q)).found = true
        then some (runParse (p ++ openLine :: closeLine :: q)).data
        else Option.none) = some []
      rw [hrunG]
      rfl
    have hbufG : linesWithoutTitleBlock (p ++ openLine :: closeLine :: q) = f := by
      show (runParse (p ++ openLine :: closeLine :: q)).buffer = f
      rw [hrunG, hpq]
    unfold updateLines
    rw [hparseG, hbufG, hparse, hbuf]

/-! ## Claim C4: backup/restore round trip on the file-system model -/

theorem fsLookup_fsWrite_self (fs : FS) (p : String) (c : List Line) :
    fsLookup (fsWrite fs p c) p = some c := by
  induction fs with
  | nil => simp [fsWrite, fsLookup]
  | cons qc fs ih =>
    obtain ⟨k1, v1⟩ := qc
    unfold fsWrite
    by_cases h : (k1 == p) = true
    · rw [if_pos h]
      unfold fsLookup
      rw [if_pos h]
    · rw [if_neg h]
      unfold fsLookup
      rw [if_neg h]
      exact ih

theorem fsLookup_fsWrite_ne (fs : FS) {p q : String} (c : List Line)
    (h : q ≠ p) : fsLookup (fsWrite fs p c) q = fsLookup fs q := by
  induction fs with
  | nil =>
    unfold fsWrite fsLookup
    rw [if_neg (by simpa using fun hc => h hc.symm)]
    rfl
  | cons qc fs ih =>
    obtain ⟨k1, v1⟩ := qc
    unfold fsWrite
    by_cases hq : (k1 == p) = true
    · rw [if_pos hq]
      have hk : k1 = p := by simpa using hq
      have hkq : ¬((k1 == q) = true) := by
        intro h2
        have h3 : k1 = q := by simpa using h2
        exact h (by rw [← h3, hk])
      unfold fsLookup
      rw [if_neg hkq, if_neg hkq]
    · rw [if_neg hq]
      unfold fsLookup
      by_cases h2 : (k1 == q) = true
      · rw [if_pos h2, if_pos h2]
      · rw [if_neg h2, if_neg h2]
        exact ih

theorem fsLookup_filter_self (fs : FS) (p : String) :
    fsLookup (fs.filter (fun qc => qc.1 ≠ p)) p = Option.none := by
  induction fs with
  | nil => rfl
  | cons qc fs ih =>
    obtain ⟨k1, v1⟩ := qc
    rw [List.filter_cons]
    by_cases h : k1 = p
    · rw [if_neg (by simp [h])]
      exact ih
    · rw [if_pos (by simp [h])]
      unfold fsLookup
      rw [if_neg (by simpa using h)]
      exact ih

theorem fsLookup_filter_ne (fs : FS) {p q : String} (h : q ≠ p) :
    fsLookup (fs.filter (fun qc => qc.1 ≠ p)) q = fsLookup fs q := by
  induction fs with
  | nil => rfl
  | cons qc fs ih =>
    obtain ⟨k1, v1⟩ := qc
    rw [List.filter_cons]
    by_cases hq : k1 = p
    · rw [if_neg (by simp [hq])]
      rw [ih]
      have hkq : ¬((k1 == q) = true) := by
        intro h2
        have h3 : k1 = q := by simpa using h2
        exact h (by rw [← h3, hq])
      conv_rhs => unfold fsLookup
      rw [if_neg hkq]
    · rw [if_pos (by simp [hq])]
      unfold fsLookup
      by_cases h2 : (k1 == q) = true
      · rw [if_pos h2, if_pos h2]
      · rw [if_neg h2, if_neg h2]
        exact ih

theorem backup_filename_ne (f : String) :
    TitleBlockParser.backup_filename f ≠ f := by
  unfold TitleBlockParser.backup_filename
  intro h
  have hlen := congrArg String.length h
  rw [String.length_append] at hlen
  have h10 : (".ki-pa.bak" : String).length = 10 := rfl
  rw [h10] at hlen
  omega

open TitleBlockParser in
/-- C4: `update_file_inplace_with_backup` followed immediately by
`restore_backup` leaves the file byte-identical to the pre-update content,
and the backup file no longer exists afterwards. -/
theorem C4_backup_restore (fs : FS) (f : String) (upd : TBDict) (c : List Line)
    (h : fsLookup fs f = some c) :
    ∃ fs2,
      (update_file_inplace_with_backup fs f upd >>= fun fs1 =>
        restore_backup fs1 f) = .ok fs2 ∧
      fsLookup fs2 f = some c ∧
      fsLookup fs2 (backup_filename f) = Option.none := by
  have hne1 : backup_filename f ≠ f := backup_filename_ne f
  have hne2 : f ≠ backup_filename f := fun hc => hne1 hc.symm
  have hr1 : fsRead fs f = .ok c := by
    unfold fsRead
    rw [h]
  have hcopy1 : copyfile fs f (backup_filename f) =
      .ok (fsWrite fs (backup_filename f) c) := by
    unfold copyfile
    rw [hr1]
    rfl
  have hr2 : fsRead (fsWrite fs (backup_filename f) c) f = .ok c := by
    unfold fsRead
    rw [fsLookup_fsWrite_ne _ _ hne2, h]
  have hupdate : update_file (fsWrite fs (backup_filename f) c) f f upd =
      .ok (fsWrite (fsWrite fs (backup_filename f) c) f (updateLines c upd)) := by
    unfold update_file
    rw [hr2]
    rfl
  have hinplace : update_file_inplace_with_backup fs f upd =
      .ok (fsWrite (fsWrite fs (backup_filename f) c) f (updateLines c upd)) := by
    unfold update_file_inplace_with_backup
    rw [hcopy1]
    exact hupdate
  have hr3 : fsRead (fsWrite (fsWrite fs (backup_filename f) c) f
      (updateLines c upd)) (backup_filename f) = .ok c := by
    unfold fsRead
    rw [fsLookup_fsWrite_ne _ _ hne1, fsLookup_fsWrite_self]
  have hcopy2 : copyfile (fsWrite (fsWrite fs (backup_filename f) c) f
      (updateLines c upd)) (backup_filename f) f =
      .ok (fsWrite (fsWrite (fsWrite fs (backup_filename f) c) f
        (updateLines c upd)) f c) := by
    unfold copyfile
    rw [hr3]
    rfl
  have hr4 : fsLookup (fsWrite (fsWrite (fsWrite fs (backup_filename f) c) f
      (updateLines c upd)) f c) (backup_filename f) = some c := by
    rw [fsLookup_fsWrite_ne _ _ hne1, fsLookup_fsWrite_ne _ _ hne1,
      fsLookup_fsWrite_self]
  have hremove : fsRemove (fsWrite (fsWrite (fsWrite fs (backup_filename f) c)
      f (updateLines c upd)) f c) (backup_filename f) =
      .ok ((fsWrite (fsWrite (fsWrite fs (backup_filename f) c) f
        (updateLines c upd)) f c).filter
          (fun qc => qc.1 ≠ backup_filename f)) := by
    unfold fsRemove
    rw [hr4]
  have hrestore : restore_backup (fsWrite (fsWrite fs (backup_filename f) c) f
      (updateLines c upd)) f =
      .ok ((fsWrite (fsWrite (fsWrite fs (backup_filename f) c) f
        (updateLines c upd)) f c).filter
          (fun qc => qc.1 ≠ backup_filename f)) := by
    unfold restore_backup
    rw [hcopy2]
    exact hremove
  refine ⟨(fsWrite (fsWrite (fsWrite fs (backup_filename f) c) f
      (updateLines c upd)) f c).filter
        (fun qc => qc.1 ≠ backup_filename f), ?_, ?_, ?_⟩
  · rw [hinplace]
    exact hrestore
  · rw [fsLookup_filter_ne _ hne2, fsLookup_fsWrite_self]
  · exact fsLookup_filter_self _ _

/-! ## Claim C1: repeated-key folding at the spec example -/

/-- C1 (code bug): folding `(lib (property "A" "1")(property "B" "2"))`
does not yield a two-element sequence of the two folded property children.
The first `property` child collapses to the list `["A", "1"]`, and because
that value is already a list, the `isinstance(d[key], list)` wrapping check
in `to_dict` is skipped and the second child is appended INTO it, producing
the spliced three-element value `["A", "1", ["B", "2"]]`. -/
theorem C1_repeated_key_splices :
    parse_sexpr "(lib (property \"A\" \"1\")(property \"B\" \"2\"))" =
      .ok (.dict [("tag", .str "lib"),
        ("property", .lst [.str "A", .str "1",
          .lst [.str "B", .str "2"]])]) := rfl

/-! ## Claim C2: datasheet extraction at the spec example -/

/-- C2 (code bug): on the parse of
`(kicad_symbol_lib (symbol "R_0603" (property "Datasheet" "http://x/y.pdf")))`
the single property child collapses to a plain list of strings, so
`extract_datasheets` iterates over raw strings and crashes with
`AttributeError` (`str` has no `.get`) instead of returning
`{"R_0603": "http://x/y.pdf"}`. -/
theorem C2_datasheet_extraction_crashes :
    parse_sexpr
        "(kicad_symbol_lib (symbol \"R_0603\" (property \"Datasheet\" \"http://x/y.pdf\")))" =
      .ok (.dict [("tag", .str "kicad_symbol_lib"),
        ("symbol", .dict [("tag", .str "symbol"),
          ("positional", .lst [.str "R_0603"]),
          ("property", .lst [.str "Datasheet", .str "http://x/y.pdf"])])]) ∧
    extract_datasheets
        (.dict [("tag", .str "kicad_symbol_lib"),
          ("symbol", .dict [("tag", .str "symbol"),
            ("positional", .lst [.str "R_0603"]),
            ("property", .lst [.str "Datasheet", .str "http://x/y.pdf"])])]) =
      .error "AttributeError" :=
  ⟨rfl, rfl⟩

/-! ## Reduction helpers for `Except` binds -/

theorem ebind_ok {α β : Type} (a : α) (f : α → Except Err β) :
    (Except.ok a >>= f) = f a := rfl

theorem ebind_error {α β : Type} (e : Err) (f : α → Except Err β) :
    ((Except.error e : Except Err α) >>= f) = Except.error e := rfl

theorem ebind_ok_iff {α β : Type} {a : Except Err α} {f : α → Except Err β}
    {b : β} : (a >>= f) = .ok b ↔ ∃ x, a = .ok x ∧ f x = .ok b := by
  cases a with
  | error e => simp [ebind_error]
  | ok x => simp [ebind_ok]

/-! ## Claim C8: malformed inputs -/

/-- C8 counterexample: the empty list `()` does NOT raise a syntax error;
`nestedExpr` wraps its content in `ZeroOrMore`, so `()` parses and folds to
the empty dictionary. -/
theorem C8_counterexample_empty_list :
    parse_sexpr "()" = .ok (.dict []) := rfl

/-- A successful quoted-string match consumed a well-formed body up to a
closing quote. -/
theorem qBody_sound {q : Char} : ∀ {fuel : Nat} {cs b r : List Char},
    qBody q fuel cs = some (b, r) → ∃ u, cs = u ++ q :: r ∧ QBodyWF q u := by
  intro fuel
  induction fuel with
  | zero =>
    intro cs b r h
    match cs with
    | [] =>
      replace h : (Option.none : Option (List Char × List Char)) =
        some (b, r) := h
      exact Option.noConfusion h
    | c :: cs1 =>
      replace h : (Option.none : Option (List Char × List Char)) =
        some (b, r) := h
      exact Option.noConfusion h
  | succ fuel ih =>
    intro cs b r h
    match cs with
    | [] =>
      replace h : (Option.none : Option (List Char × List Char)) =
        some (b, r) := h
      exact Option.noConfusion h
    | c :: cs1 =>
      simp only [qBody] at h
      split at h
      · -- the head character is the quote
        rename_i hq
        have hc : c = q := by simpa using hq
        split at h
        · -- cs1 = c2 :: cs2
          split at h
          · -- a doubled quote
            rename_i c2 cs2 hq2
            have hc2 : c2 = q := by simpa using hq2
            split at h
            · -- greedy continuation succeeds
              rename_i b1 r1 hrec
              obtain ⟨u1, hu1, hwf1⟩ := ih hrec
              obtain ⟨hb, hr⟩ := Prod.mk.injEq .. ▸ Option.some.inj h
              refine ⟨c :: c2 :: u1, ?_, ?_⟩
              · rw [hu1, ← hr]
                rfl
              · rw [hc, hc2]
                exact QBodyWF.dbl hwf1
            · -- greedy continuation fails: close here
              obtain ⟨hb, hr⟩ := Prod.mk.injEq .. ▸ Option.some.inj h
              refine ⟨[], ?_, QBodyWF.nil⟩
              rw [hc, ← hr]
              rfl
          · -- the next character is not a quote: close here
            obtain ⟨hb, hr⟩ := Prod.mk.injEq .. ▸ Option.some.inj h
            refine ⟨[], ?_, QBodyWF.nil⟩
            rw [hc, ← hr]
            rfl
        · -- cs1 = []: close at the end of input
          obtain ⟨hb, hr⟩ := Prod.mk.injEq .. ▸ Option.some.inj h
          refine ⟨[], ?_, QBodyWF.nil⟩
          rw [hc, ← hr]
          rfl
      · -- not the quote
        rename_i hq
        split at h
        · -- a backslash escape
          rename_i hbs
          have hc : c = '\\' := by simpa using hbs
          subst hc
          split at h
          · -- hex escape
            rename_i cs2
            split at h
            · exact Option.noConfusion h
            · rename_i hhex
              split at h
              · rename_i b1 r1 hrec
                obtain ⟨u1, hu1, hwf1⟩ := ih hrec
                obtain ⟨hb, hr⟩ := Prod.mk.injEq .. ▸ Option.some.inj h
                refine ⟨'\\' :: 'x' :: (cs2.takeWhile isHexCh ++ u1), ?_,
                  QBodyWF.escx (by simpa [List.isEmpty_iff] using hhex)
                    (fun c2 hc2 => List.mem_takeWhile_imp hc2) hwf1⟩
                conv_lhs => rw [← List.takeWhile_append_dropWhile
                  (p := isHexCh) (l := cs2)]
                rw [hu1, ← hr]
                simp
              · exact Option.noConfusion h
          · -- single-character escape
            rename_i c2 cs2 hnx
            split at h
            · rename_i b1 r1 hrec
              obtain ⟨u1, hu1, hwf1⟩ := ih hrec
              obtain ⟨hb, hr⟩ := Prod.mk.injEq .. ▸ Option.some.inj h
              have hc2x : c2 ≠ 'x' := fun hcc => hnx hcc
              refine ⟨'\\' :: c2 :: u1, ?_, QBodyWF.esc hc2x hwf1⟩
              rw [hu1, ← hr]
              rfl
            · exact Option.noConfusion h
          · -- escape at the end of input
            exact Option.noConfusion h
        · -- a plain character
          rename_i hbs
          split at h
          · exact Option.noConfusion h
          · rename_i hnl
            split at h
            · rename_i b1 r1 hrec
              obtain ⟨u1, hu1, hwf1⟩ := ih hrec
              obtain ⟨hb, hr⟩ := Prod.mk.injEq .. ▸ Option.some.inj h
              have hcq : c ≠ q := by simpa using hq
              have hcb : c ≠ '\\' := by simpa using hbs
              have hcn : c ≠ '\n' ∧ c ≠ '\r' := by
                constructor <;> (intro hcc; exact hnl (by simp [hcc]))
              refine ⟨c :: u1, ?_, QBodyWF.chr hcq hcb hcn.1 hcn.2 hwf1⟩
              rw [hu1, ← hr]
              rfl
            · exact Option.noConfusion h

theorem matchQuote_sound {q : Char} {fuel : Nat} {cs b r : List Char}
    (h : matchQuote q fuel cs = some (b, r)) :
    ∃ u, cs = q :: (u ++ q :: r) ∧ QBodyWF q u := by
  match cs with
  | [] => exact Option.noConfusion h
  | c :: cs1 =>
    rw [matchQuote] at h
    split at h
    · rename_i hq
      have hc : c = q := by simpa using hq
      obtain ⟨u, hu, hwf⟩ := qBody_sound h
      exact ⟨u, by rw [hc, hu], hwf⟩
    · exact Option.noConfusion h

theorem elemsWF_ws_prepend {w l : List Char} (hw : ∀ c ∈ w, tokWs c = true)
    (hl : ElemsWF l) : ElemsWF (w ++ l) := by
  induction w with
  | nil => simpa using hl
  | cons c w ih =>
    exact ElemsWF.ws (hw c (by simp))
      (ih (fun c2 hc2 => hw c2 (by simp [hc2])))

theorem elemsWF_atoms_prepend {w l : List Char}
    (hw : ∀ c ∈ w, atomChar c = true) (hl : ElemsWF l) : ElemsWF (w ++ l) := by
  induction w with
  | nil => simpa using hl
  | cons c w ih =>
    exact ElemsWF.atom (hw c (by simp))
      (ih (fun c2 hc2 => hw c2 (by simp [hc2])))

theorem parseElems_succ (fuel : Nat) (isRun : Bool) (cs0 : List Char) :
    parseElems (fuel + 1) isRun cs0 =
      parseElemsStep fuel isRun (skipTokWs cs0) := rfl

/-- Each step of the element parser consumes a well-formed chunk. -/
theorem parseElemsStep_sound {fuel : Nat}
    (ih : ∀ {isRun : Bool} {cs0 : List Char} {ts : List Tree} {r : List Char},
      parseElems fuel isRun cs0 = .ok (ts, r) →
      ∃ u, cs0 = u ++ r ∧ ElemsWF u) :
    ∀ {isRun : Bool} {cs : List Char} {ts : List Tree} {r : List Char},
      parseElemsStep fuel isRun cs = .ok (ts, r) →
      ∃ u, cs = u ++ r ∧ ElemsWF u := by
  intro isRun cs ts r h
  unfold parseElemsStep at h
  split at h
  · -- inside a word run
    split at h
    · -- cs = c :: tail
      rename_i c tail
      split at h
      · -- an atom run
        rename_i hat
        split at h
        · rename_i ts1 r1 hrec
          obtain ⟨u1, hu1, hwf1⟩ := ih hrec
          obtain ⟨hts, hr⟩ := Prod.mk.injEq .. ▸ Except.ok.inj h
          refine ⟨(c :: tail).takeWhile atomChar ++ u1, ?_, ?_⟩
          · conv_lhs => rw [← List.takeWhile_append_dropWhile
              (p := atomChar) (l := c :: tail)]
            rw [hu1, ← hr]
            simp
          · exact elemsWF_atoms_prepend
              (fun c2 hc2 => List.mem_takeWhile_imp hc2) hwf1
        · exact Except.noConfusion h
      · -- a stripped double-quoted string inside the run
        split at h
        · rename_i b1 r1 hmq
          split at h
          · rename_i ts2 r2 hrec
            obtain ⟨u1, hu1, hwf1⟩ := matchQuote_sound hmq
            obtain ⟨u2, hu2, hwf2⟩ := ih hrec
            obtain ⟨hts, hr⟩ := Prod.mk.injEq .. ▸ Except.ok.inj h
            refine ⟨'"' :: (u1 ++ '"' :: u2), ?_,
              ElemsWF.quoted (Or.inl rfl) hwf1 hwf2⟩
            rw [hu1, hu2, ← hr]
            simp
          · exact Except.noConfusion h
        · -- the run ends
          exact ih h
    · -- cs = []
      exact ih h
  · -- at an iteration boundary
    split at h
    · -- a verbatim double-quoted string
      rename_i b1 r1 hmq
      split at h
      · rename_i ts2 r2 hrec
        obtain ⟨u1, hu1, hwf1⟩ := matchQuote_sound hmq
        obtain ⟨u2, hu2, hwf2⟩ := ih hrec
        obtain ⟨hts, hr⟩ := Prod.mk.injEq .. ▸ Except.ok.inj h
        refine ⟨'"' :: (u1 ++ '"' :: u2), ?_,
          ElemsWF.quoted (Or.inl rfl) hwf1 hwf2⟩
        rw [hu1, hu2, ← hr]
        simp
      · exact Except.noConfusion h
    · -- a verbatim single-quoted string
      split at h
      · rename_i b1 r1 hmq
        split at h
        · rename_i ts2 r2 hrec
          obtain ⟨u1, hu1, hwf1⟩ := matchQuote_sound hmq
          obtain ⟨u2, hu2, hwf2⟩ := ih hrec
          obtain ⟨hts, hr⟩ := Prod.mk.injEq .. ▸ Except.ok.inj h
          refine ⟨'\'' :: (u1 ++ '\'' :: u2), ?_,
            ElemsWF.quoted (Or.inr rfl) hwf1 hwf2⟩
          rw [hu1, hu2, ← hr]
          simp
        · exact Except.noConfusion h
      · -- a subgroup, an atom run, or the end of the group
        split at h
        · -- a balanced subgroup
          rename_i rest
          split at h
          · rename_i children r1 hrec1
            split at h
            · rename_i r2
              split at h
              · rename_i ts3 r3 hrec2
                obtain ⟨u1, hu1, hwf1⟩ := ih hrec1
                obtain ⟨u2, hu2, hwf2⟩ := ih hrec2
                obtain ⟨hts, hr⟩ := Prod.mk.injEq .. ▸ Except.ok.inj h
                refine ⟨'(' :: (u1 ++ ')' :: u2), ?_,
                  ElemsWF.group hwf1 hwf2⟩
                rw [hu1, hu2, ← hr]
                simp
              · exact Except.noConfusion h
            · exact Except.noConfusion h
          · exact Except.noConfusion h
        · -- cs = c :: tail, not an opening paren
          rename_i c tail
          split at h
          · exact ih h
          · obtain ⟨hts, hr⟩ := Prod.mk.injEq .. ▸ Except.ok.inj h
            exact ⟨[], by rw [← hr]; rfl, ElemsWF.nil⟩
        · -- cs = []
          obtain ⟨hts, hr⟩ := Prod.mk.injEq .. ▸ Except.ok.inj h
          exact ⟨[], by rw [← hr]; rfl, ElemsWF.nil⟩

/-- Whatever the element parser consumed is a well-formed group interior. -/
theorem parseElems_sound : ∀ {fuel : Nat} {isRun : Bool} {cs0 : List Char}
    {ts : List Tree} {r : List Char},
    parseElems fuel isRun cs0 = .ok (ts, r) → ∃ u, cs0 = u ++ r ∧ ElemsWF u := by
  intro fuel
  induction fuel with
  | zero =>
    intro _ _ _ _ h
    exact Except.noConfusion h
  | succ fuel ih =>
    intro isRun cs0 ts r h
    rw [parseElems_succ] at h
    obtain ⟨u, hu, hwf⟩ := parseElemsStep_sound (fun hh => ih hh) h
    refine ⟨cs0.takeWhile tokWs ++ u, ?_, ?_⟩
    · conv_lhs => rw [← List.takeWhile_append_dropWhile (p := tokWs) (l := cs0)]
      rw [show List.dropWhile tokWs cs0 = skipTokWs cs0 from rfl, hu]
      simp
    · exact elemsWF_ws_prepend (fun c hc => List.mem_takeWhile_imp hc) hwf

/-- Tokenization succeeds only on well-formed inputs: a single balanced
group with a well-formed interior and only surrounding whitespace. -/
theorem tokenizeSexpr_sound {s : String} {ts : List Tree}
    (h : tokenizeSexpr s = .ok ts) : WellFormedSexpr s.data := by
  replace h : (match skipTokWs s.data with
    | '(' :: rest =>
      match parseElems (2 * s.data.length + 4) false rest with
      | Except.ok (children, r) =>
        match r with
        | ')' :: r2 =>
          if (skipTokWs r2).isEmpty then Except.ok children
          else (Except.error "ParseException" : Except Err (List Tree))
        | _ => Except.error "ParseException"
      | Except.error e => Except.error e
    | _ => Except.error "ParseException") = Except.ok ts := h
  split at h
  · rename_i rest hrest
    split at h
    · rename_i children r hrec
      split at h
      · rename_i r2
        split at h
        · rename_i hws
          obtain ⟨u, hu, hwf⟩ := parseElems_sound hrec
          refine ⟨s.data.takeWhile tokWs, u, r2, ?_, ?_, hwf, ?_⟩
          · conv_lhs => rw [← List.takeWhile_append_dropWhile
              (p := tokWs) (l := s.data)]
            rw [show List.dropWhile tokWs s.data = skipTokWs s.data from rfl,
              hrest, hu]
          · exact fun c hc => List.mem_takeWhile_imp hc
          · intro c hc
            have h2 : List.dropWhile tokWs r2 = [] :=
              List.isEmpty_iff.mp hws
            exact List.dropWhile_eq_nil_iff.mp h2 c hc
        · exact Except.noConfusion h
      · exact Except.noConfusion h
    · exact Except.noConfusion h
  · exact Except.noConfusion h

/-- A well-formed input ends, whitespace aside, with the closing paren of
the top-level group (so inputs with a missing closer or with trailing
tokens are outside the grammar). -/
theorem wellFormed_last_nonws {s : List Char} (h : WellFormedSexpr s) :
    (s.reverse.dropWhile tokWs).head? = some ')' := by
  obtain ⟨w1, body, w2, hs, hw1, hb, hw2⟩ := h
  have hrev : s.reverse = w2.reverse ++
      (')' :: (body.reverse ++ '(' :: w1.reverse)) := by
    rw [hs]
    simp
  rw [hrev, dropWhile_of_all _ (fun c hc => hw2 c (List.mem_reverse.mp hc)),
    dropWhile_cons_neg _ (by decide)]
  rfl

/-- C8 (amended): `parse_sexpr` never returns a partial tree: whenever it
returns a result, the whole input is one well-formed balanced group
surrounded by whitespace only. Contrapositively, every input with
unbalanced parentheses, a bare character outside the atom class, an
unterminated quoted string, or non-whitespace tokens trailing the first
balanced group raises a syntax-error condition and returns no result. A
top-level empty list `()`, however, is well-formed for the grammar (see
the counterexample), and an empty list nested as a direct element of a
folded list fails only at fold time, with an `IndexError`. -/
theorem C8_malformed_inputs :
    (∀ (s : String) (v : PyVal), parse_sexpr s = .ok v →
      WellFormedSexpr s.data) ∧
    (∀ s : String, ¬ WellFormedSexpr s.data → ∃ e, parse_sexpr s = .error e) ∧
    ¬ WellFormedSexpr ("(a" : String).data ∧
    ¬ WellFormedSexpr ("(a) b" : String).data ∧
    parse_sexpr "(a ())" = .error "IndexError" := by
  have hsound : ∀ (s : String) (v : PyVal), parse_sexpr s = .ok v →
      WellFormedSexpr s.data := by
    intro s v h
    unfold parse_sexpr at h
    rw [ebind_ok_iff] at h
    obtain ⟨children, hch, h⟩ := h
    exact tokenizeSexpr_sound hch
  refine ⟨hsound, ?_,
    fun h => absurd (wellFormed_last_nonws h) (by decide),
    fun h => absurd (wellFormed_last_nonws h) (by decide), rfl⟩
  intro s hwf
  cases hp : parse_sexpr s with
  | error e => exact ⟨e, rfl⟩
  | ok v => exact absurd (hsound s v hp) hwf

/-! ## Claim C6: extends filtering -/

/-- A symbol dict that passes the asserted preconditions and carries an
`extends` field is skipped by the pin-extraction loop. -/
theorem pinsSymbol_skip {s : List (String × PyVal)} {p : PyVal} {ps : List PyVal}
    (hpos : dLookup s "positional" = some (.lst (p :: ps)))
    (hprop : ∃ pv, dLookup s "property" = some pv ∧ pv ≠ PyVal.none)
    (hext : dGet s "extends" ≠ PyVal.none) :
    ∀ m, pinsSymbol m (.dict s) = .ok m := by
  intro m
  obtain ⟨pv, hpv, hpvne⟩ := hprop
  unfold pinsSymbol
  rw [show pyGetAttrGet (.dict s) "positional" = .ok (PyVal.lst (p :: ps)) by
    show Except.ok ((dLookup s "positional").getD PyVal.none) = _
    rw [hpos]
    rfl]
  rw [show pyGetItem (.dict s) "positional" = .ok (PyVal.lst (p :: ps)) by
    show (match dLookup s "positional" with
      | some x => Except.ok x
      | Option.none => Except.error "KeyError") = _
    rw [hpos]]
  rw [show pyGetAttrGet (.dict s) "property" = .ok pv by
    show Except.ok ((dLookup s "property").getD PyVal.none) = _
    rw [hpv]
    rfl]
  rw [show pyGetAttrGet (.dict s) "extends" = .ok (dGet s "extends") from rfl]
  simp only [bind, Except.bind, pyLen, pyIdx]
  cases hpvc : pv with
  | none => exact absurd hpvc hpvne
  | str t =>
    cases hec : dGet s "extends" with
    | none => exact absurd hec hext
    | str a => rfl
    | lst a => rfl
    | dict a => rfl
  | lst xs =>
    cases hec : dGet s "extends" with
    | none => exact absurd hec hext
    | str a => rfl
    | lst a => rfl
    | dict a => rfl
  | dict kvs =>
    cases hec : dGet s "extends" with
    | none => exact absurd hec hext
    | str a => rfl
    | lst a => rfl
    | dict a => rfl

/-- Same for the graphical-element loop. -/
theorem graphSymbol_skip {s : List (String × PyVal)} {p : PyVal} {ps : List PyVal}
    (hpos : dLookup s "positional" = some (.lst (p :: ps)))
    (hprop : ∃ pv, dLookup s "property" = some pv ∧ pv ≠ PyVal.none)
    (hext : dGet s "extends" ≠ PyVal.none) :
    ∀ m, graphSymbol m (.dict s) = .ok m := by
  intro m
  obtain ⟨pv, hpv, hpvne⟩ := hprop
  unfold graphSymbol
  rw [show pyGetAttrGet (.dict s) "positional" = .ok (PyVal.lst (p :: ps)) by
    show Except.ok ((dLookup s "positional").getD PyVal.none) = _
    rw [hpos]
    rfl]
  rw [show pyGetItem (.dict s) "positional" = .ok (PyVal.lst (p :: ps)) by
    show (match dLookup s "positional" with
      | some x => Except.ok x
      | Option.none => Except.error "KeyError") = _
    rw [hpos]]
  rw [show pyGetAttrGet (.dict s) "property" = .ok pv by
    show Except.ok ((dLookup s "property").getD PyVal.none) = _
    rw [hpv]
    rfl]
  rw [show pyGetAttrGet (.dict s) "extends" = .ok (dGet s "extends") from rfl]
  simp only [bind, Except.bind, pyLen, pyIdx]
  cases hpvc : pv with
  | none => exact absurd hpvc hpvne
  | str t =>
    cases hec : dGet s "extends" with
    | none => exact absurd hec hext
    | str a => rfl
    | lst a => rfl
    | dict a => rfl
  | lst xs =>
    cases hec : dGet s "extends" with
    | none => exact absurd hec hext
    | str a => rfl
    | lst a => rfl
    | dict a => rfl
  | dict kvs =>
    cases hec : dGet s "extends" with
    | none => exact absurd hec hext
    | str a => rfl
    | lst a => rfl
    | dict a => rfl

/-- The pin extractor is the fold of its per-symbol loop body over the
symbol list. -/
theorem pins_map_eq_fold {kvs : List (String × PyVal)} {L : List PyVal}
    (hsym : dLookup kvs "symbol" = some (.lst L)) :
    extract_symbols_to_pins_map (.dict kvs) = L.foldlM pinsSymbol [] := by
  have h1 : dGetD kvs "symbol" (PyVal.lst []) = PyVal.lst L := by
    unfold dGetD
    rw [hsym]
    rfl
  show (pyIter
      (match dGetD kvs "symbol" (PyVal.lst []) with
        | PyVal.dict s => PyVal.lst [PyVal.dict s]
        | v => v)) >>= (fun syms => syms.foldlM pinsSymbol []) = _
  rw [h1]
  rfl

/-- Same for the graphical-element extractor. -/
theorem graph_map_eq_fold {kvs : List (String × PyVal)} {L : List PyVal}
    (hsym : dLookup kvs "symbol" = some (.lst L)) :
    extract_symbols_to_graphical_elements_map (.dict kvs) =
      L.foldlM graphSymbol [] := by
  have h1 : dGetD kvs "symbol" (PyVal.lst []) = PyVal.lst L := by
    unfold dGetD
    rw [hsym]
    rfl
  show (pyIter
      (match dGetD kvs "symbol" (PyVal.lst []) with
        | PyVal.dict s => PyVal.lst [PyVal.dict s]
        | v => v)) >>= (fun syms => syms.foldlM graphSymbol []) = _
  rw [h1]
  rfl

/-- Folding over a list with an element the body maps to `pure` is the same
as folding without it. -/
theorem foldlM_skip_middle {α : Type} {f : α → PyVal → Except Err α} {x : PyVal}
    (hx : ∀ m, f m x = .ok m) (l1 l2 : List PyVal) :
    ∀ init : α, List.foldlM f init (l1 ++ x :: l2) =
      List.foldlM f init (l1 ++ l2) := by
  induction l1 with
  | nil =>
    intro init
    simp only [List.nil_append, List.foldlM_cons, hx, ebind_ok]
  | cons a l1 ih =>
    intro init
    simp only [List.cons_append, List.foldlM_cons]
    cases hfa : f init a with
    | error e => rw [ebind_error, ebind_error]
    | ok m =>
      rw [ebind_ok, ebind_ok]
      exact ih m

/-- Folding over a list with an element on which the body always fails
fails as well (possibly with an earlier element's error). -/
theorem foldlM_error_middle {α : Type} {f : α → PyVal → Except Err α}
    {x : PyVal} {e : Err} (hx : ∀ m, f m x = .error e) (l1 l2 : List PyVal) :
    ∀ init : α, ∃ e2, List.foldlM f init (l1 ++ x :: l2) = .error e2 := by
  induction l1 with
  | nil =>
    intro init
    refine ⟨e, ?_⟩
    simp only [List.nil_append, List.foldlM_cons, hx, ebind_error]
  | cons a l1 ih =>
    intro init
    simp only [List.cons_append, List.foldlM_cons]
    cases hfa : f init a with
    | error e3 => exact ⟨e3, by rw [ebind_error]⟩
    | ok m =>
      obtain ⟨e2, h2⟩ := ih m
      exact ⟨e2, by rw [ebind_ok]; exact h2⟩

/-- C6: a folded symbol node that passes the asserted preconditions and
carries an `extends` field contributes zero entries to pin extraction and
zero entries to graphical-element extraction: on any tree whose symbol list
contains it, both extractors return exactly what they return on the same
tree with that symbol removed. -/
theorem C6_extends_filtering (kvs kvs2 : List (String × PyVal))
    (l1 l2 : List PyVal) (s : List (String × PyVal))
    (hsym : dLookup kvs "symbol" = some (.lst (l1 ++ PyVal.dict s :: l2)))
    (hsym2 : dLookup kvs2 "symbol" = some (.lst (l1 ++ l2)))
    (hpos : ∃ p ps, dLookup s "positional" = some (.lst (p :: ps)))
    (hprop : ∃ pv, dLookup s "property" = some pv ∧ pv ≠ PyVal.none)
    (hext : dGet s "extends" ≠ PyVal.none) :
    extract_symbols_to_pins_map (.dict kvs) =
      extract_symbols_to_pins_map (.dict kvs2) ∧
    extract_symbols_to_graphical_elements_map (.dict kvs) =
      extract_symbols_to_graphical_elements_map (.dict kvs2) := by
  obtain ⟨p, ps, hpos⟩ := hpos
  constructor
  · rw [pins_map_eq_fold hsym, pins_map_eq_fold hsym2]
    exact foldlM_skip_middle (pinsSymbol_skip hpos hprop hext) l1 l2 []
  · rw [graph_map_eq_fold hsym, graph_map_eq_fold hsym2]
    exact foldlM_skip_middle (graphSymbol_skip hpos hprop hext) l1 l2 []

/-! ## Claim C10: symbols without `symbol` sub-children crash extraction -/

/-- A non-extending symbol dict that passes the asserts but has no
`symbol` field: `symbol.get("symbol")` yields `None`, which is wrapped into
`[None]`, and `"pin" in None` raises `TypeError`. -/
theorem pinsSymbol_stuck {s : List (String × PyVal)} {p : PyVal} {ps : List PyVal}
    (hpos : dLookup s "positional" = some (.lst (p :: ps)))
    (hprop : ∃ pv, dLookup s "property" = some pv ∧ pv ≠ PyVal.none)
    (hextnone : dGet s "extends" = PyVal.none)
    (hsub : dGet s "symbol" = PyVal.none) :
    ∀ m, pinsSymbol m (.dict s) = .error "TypeError" := by
  intro m
  obtain ⟨pv, hpv, hpvne⟩ := hprop
  unfold pinsSymbol
  rw [show pyGetAttrGet (.dict s) "positional" = .ok (PyVal.lst (p :: ps)) by
    show Except.ok ((dLookup s "positional").getD PyVal.none) = _
    rw [hpos]
    rfl]
  rw [show pyGetItem (.dict s) "positional" = .ok (PyVal.lst (p :: ps)) by
    show (match dLookup s "positional" with
      | some x => Except.ok x
      | Option.none => Except.error "KeyError") = _
    rw [hpos]]
  rw [show pyGetAttrGet (.dict s) "property" = .ok pv by
    show Except.ok ((dLookup s "property").getD PyVal.none) = _
    rw [hpv]
    rfl]
  rw [show pyGetAttrGet (.dict s) "extends" = .ok (dGet s "extends") from rfl]
  rw [hextnone]
  rw [show pyGetAttrGet (.dict s) "symbol" = .ok (dGet s "symbol") from rfl]
  rw [hsub]
  simp only [bind, Except.bind, pyLen, pyIdx]
  cases hpvc : pv with
  | none => exact absurd hpvc hpvne
  | str t => rfl
  | lst xs => rfl
  | dict kvs => rfl

/-- Same for graphical-element extraction: `subsymbol.get("text", [])` on
`None` raises `AttributeError`. -/
theorem graphSymbol_stuck {s : List (String × PyVal)} {p : PyVal} {ps : List PyVal}
    (hpos : dLookup s "positional" = some (.lst (p :: ps)))
    (hprop : ∃ pv, dLookup s "property" = some pv ∧ pv ≠ PyVal.none)
    (hextnone : dGet s "extends" = PyVal.none)
    (hsub : dGet s "symbol" = PyVal.none) :
    ∀ m, graphSymbol m (.dict s) = .error "AttributeError" := by
  intro m
  obtain ⟨pv, hpv, hpvne⟩ := hprop
  unfold graphSymbol
  rw [show pyGetAttrGet (.dict s) "positional" = .ok (PyVal.lst (p :: ps)) by
    show Except.ok ((dLookup s "positional").getD PyVal.none) = _
    rw [hpos]
    rfl]
  rw [show pyGetItem (.dict s) "positional" = .ok (PyVal.lst (p :: ps)) by
    show (match dLookup s "positional" with
      | some x => Except.ok x
      | Option.none => Except.error "KeyError") = _
    rw [hpos]]
  rw [show pyGetAttrGet (.dict s) "property" = .ok pv by
    show Except.ok ((dLookup s "property").getD PyVal.none) = _
    rw [hpv]
    rfl]
  rw [show pyGetAttrGet (.dict s) "extends" = .ok (dGet s "extends") from rfl]
  rw [hextnone]
  rw [show pyGetAttrGet (.dict s) "symbol" = .ok (dGet s "symbol") from rfl]
  rw [hsub]
  simp only [bind, Except.bind, pyLen, pyIdx]
  cases hpvc : pv with
  | none => exact absurd hpvc hpvne
  | str t => rfl
  | lst xs => rfl
  | dict kvs => rfl

/-- C10: on every folded tree whose symbol list contains a non-extending
symbol that passes the asserted preconditions but has no `symbol`
sub-children, pin extraction raises (`TypeError`: the absent field is
wrapped into `[None]` and membership-tested) and graphical-element
extraction fails likewise (`AttributeError`), instead of mapping the symbol
to an empty list. -/
theorem C10_missing_subsymbol_crashes (kvs : List (String × PyVal))
    (l1 l2 : List PyVal) (s : List (String × PyVal))
    (hsym : dLookup kvs "symbol" = some (.lst (l1 ++ PyVal.dict s :: l2)))
    (hpos : ∃ p ps, dLookup s "positional" = some (.lst (p :: ps)))
    (hprop : ∃ pv, dLookup s "property" = some pv ∧ pv ≠ PyVal.none)
    (hextnone : dGet s "extends" = PyVal.none)
    (hsub : dGet s "symbol" = PyVal.none) :
    (∃ e, extract_symbols_to_pins_map (.dict kvs) = .error e) ∧
    (∃ e, extract_symbols_to_graphical_elements_map (.dict kvs) = .error e) := by
  obtain ⟨p, ps, hpos⟩ := hpos
  constructor
  · rw [pins_map_eq_fold hsym]
    exact foldlM_error_middle (pinsSymbol_stuck hpos hprop hextnone hsub) l1 l2 []
  · rw [graph_map_eq_fold hsym]
    exact foldlM_error_middle (graphSymbol_stuck hpos hprop hextnone hsub) l1 l2 []

/-! ## Claim C5: per-symbol pin lists are sorted numerically by pin number

`current_symbol_pins.sort(key=lambda x: int(x.number))` sorts by the pin
number parsed as an integer. We chase the monadic loop body through a
let-free explicit-bind form (`pinsSymbolE`, definitionally equal to
`pinsSymbol`) to characterise each map entry as a key-sorted list. -/

theorem pinsSymbol_eq : @pinsSymbol = @pinsSymbolE := rfl

theorem ifNotNone_ok {α : Type} {v : PyVal} {k : Except Err α} {b : α}
    (h : ifNotNone v k = .ok b) : k = .ok b := by
  cases v with
  | none => exact Except.noConfusion h
  | str s => exact h
  | lst xs => exact h
  | dict kvs => exact h

theorem iteThrow_ok {α : Type} {c : Prop} [Decidable c] {e : Err}
    {k : Except Err α} {b : α}
    (h : (if c then (.error e : Except Err α) else k) = .ok b) : k = .ok b := by
  split at h
  · exact Except.noConfusion h
  · exact h

/-- CPython evaluates the sort key once per element; every decorated pair
carries `int(pin.number)`. -/
theorem decoratePins_keys {pins : List Pin} {dec : List (Int × Pin)}
    (h : decoratePins pins = .ok dec) :
    ∀ kp ∈ dec, pyInt kp.2.number = .ok kp.1 := by
  induction pins generalizing dec with
  | nil =>
    rw [decoratePins, List.mapM_nil] at h
    replace h : Except.ok ([] : List (Int × Pin)) = Except.ok dec := h
    rw [← Except.ok.inj h]
    intro kp hkp
    exact absurd hkp (List.not_mem_nil kp)
  | cons p ps ih =>
    rw [decoratePins, List.mapM_cons] at h
    rw [ebind_ok_iff] at h
    obtain ⟨x, hx, h⟩ := h
    rw [ebind_ok_iff] at h
    obtain ⟨tail, htail, h⟩ := h
    rw [ebind_ok_iff] at hx
    obtain ⟨kk, hkk, hx⟩ := hx
    replace hx : Except.ok (kk, p) = Except.ok x := hx
    rw [← Except.ok.inj hx] at h
    replace h : Except.ok ((kk, p) :: tail) = Except.ok dec := h
    rw [← Except.ok.inj h]
    intro kp hkp
    rcases List.mem_cons.mp hkp with rfl | hkp
    · exact hkk
    · exact ih htail kp hkp

/-- Every successful run of the per-symbol loop body either leaves the map
unchanged or inserts a key-sorted decorated pin list. -/
theorem pinsSymbol_shape {m m' : List (PyKey × List Pin)} {sym : PyVal}
    (h : pinsSymbol m sym = .ok m') :
    m' = m ∨ ∃ k dec, (∀ kp ∈ dec, pyInt kp.2.number = .ok kp.1) ∧
      m' = kSet m k ((sortByKey dec).map (fun kp => kp.2)) := by
  rw [pinsSymbol_eq] at h
  unfold pinsSymbolE at h
  rw [ebind_ok_iff] at h
  obtain ⟨pos, hp0, h⟩ := h
  replace h := ifNotNone_ok h
  rw [ebind_ok_iff] at h
  obtain ⟨posv, hp1, h⟩ := h
  rw [ebind_ok_iff] at h
  obtain ⟨n, hp2, h⟩ := h
  replace h := iteThrow_ok h
  rw [ebind_ok_iff] at h
  obtain ⟨symbol_name, hp3, h⟩ := h
  rw [ebind_ok_iff] at h
  obtain ⟨prop, hp4, h⟩ := h
  replace h := ifNotNone_ok h
  rw [ebind_ok_iff] at h
  obtain ⟨ext, hp5, h⟩ := h
  cases ext with
  | none =>
    replace h : pinsSymbolGo m sym symbol_name = .ok m' := h
    unfold pinsSymbolGo at h
    rw [ebind_ok_iff] at h
    obtain ⟨subsymbols, hp6, h⟩ := h
    rw [ebind_ok_iff] at h
    obtain ⟨pins, hp7, h⟩ := h
    rw [ebind_ok_iff] at h
    obtain ⟨dec, hdec, h⟩ := h
    rw [ebind_ok_iff] at h
    obtain ⟨k, hp8, h⟩ := h
    replace h : Except.ok (kSet m k ((sortByKey dec).map (fun kp => kp.2))) =
      Except.ok m' := h
    right
    exact ⟨k, dec, decoratePins_keys hdec, (Except.ok.inj h).symm⟩
  | str s =>
    replace h : Except.ok m = Except.ok m' := h
    exact Or.inl (Except.ok.inj h).symm
  | lst xs =>
    replace h : Except.ok m = Except.ok m' := h
    exact Or.inl (Except.ok.inj h).symm
  | dict kvs2 =>
    replace h : Except.ok m = Except.ok m' := h
    exact Or.inl (Except.ok.inj h).symm

theorem mem_insertByKey {z x : Int × Pin} {l : List (Int × Pin)} :
    z ∈ insertByKey x l ↔ z = x ∨ z ∈ l := by
  induction l with
  | nil => simp [insertByKey]
  | cons y ys ih =>
    by_cases hc : y.1 ≤ x.1
    · simp only [insertByKey, if_pos hc, List.mem_cons, ih]
      tauto
    · simp only [insertByKey, if_neg hc, List.mem_cons]

theorem insertByKey_pairwise {x : Int × Pin} {l : List (Int × Pin)}
    (h : l.Pairwise (fun a b => a.1 ≤ b.1)) :
    (insertByKey x l).Pairwise (fun a b => a.1 ≤ b.1) := by
  induction l with
  | nil => simp [insertByKey]
  | cons y ys ih =>
    rw [List.pairwise_cons] at h
    obtain ⟨hy, hys⟩ := h
    by_cases hc : y.1 ≤ x.1
    · rw [insertByKey, if_pos hc, List.pairwise_cons]
      refine ⟨?_, ih hys⟩
      intro z hz
      rcases mem_insertByKey.mp hz with rfl | hz
      · exact hc
      · exact hy z hz
    · rw [insertByKey, if_neg hc, List.pairwise_cons]
      refine ⟨?_, List.pairwise_cons.mpr ⟨hy, hys⟩⟩
      intro z hz
      rcases List.mem_cons.mp hz with rfl | hz
      · exact le_of_lt (lt_of_not_le hc)
      · exact le_trans (le_of_lt (lt_of_not_le hc)) (hy z hz)

theorem sortByKey_pairwise (l : List (Int × Pin)) :
    (sortByKey l).Pairwise (fun a b => a.1 ≤ b.1) := by
  suffices h : ∀ (l acc : List (Int × Pin)),
      acc.Pairwise (fun a b => a.1 ≤ b.1) →
      (l.foldl (fun acc x => insertByKey x acc) acc).Pairwise
        (fun a b => a.1 ≤ b.1) from h l [] (by simp)
  intro l
  induction l with
  | nil => intro acc h; simpa using h
  | cons x xs ih => intro acc h; exact ih _ (insertByKey_pairwise h)

theorem mem_sortByKey {z : Int × Pin} {l : List (Int × Pin)} :
    z ∈ sortByKey l ↔ z ∈ l := by
  suffices h : ∀ (l acc : List (Int × Pin)) z,
      z ∈ l.foldl (fun acc x => insertByKey x acc) acc ↔ z ∈ l ∨ z ∈ acc by
    simpa using h l [] z
  intro l
  induction l with
  | nil => intro acc z; simp
  | cons x xs ih =>
    intro acc z
    rw [List.foldl_cons, ih, mem_insertByKey, List.mem_cons]
    tauto

theorem mem_kSet {α : Type} {kvs : List (PyKey × α)} {k : PyKey} {v : α}
    {kp : PyKey × α} (h : kp ∈ kSet kvs k v) : kp ∈ kvs ∨ kp.2 = v := by
  induction kvs with
  | nil =>
    rw [kSet] at h
    rcases List.mem_singleton.mp h with rfl
    exact Or.inr rfl
  | cons y ys ih =>
    obtain ⟨k1, v1⟩ := y
    by_cases hc : k1 = k
    · rw [kSet, if_pos hc] at h
      rcases List.mem_cons.mp h with rfl | h
      · exact Or.inr rfl
      · exact Or.inl (List.mem_cons_of_mem _ h)
    · rw [kSet, if_neg hc] at h
      rcases List.mem_cons.mp h with rfl | h
      · exact Or.inl (List.mem_cons_self _ _)
      · rcases ih h with h | h
        · exact Or.inl (List.mem_cons_of_mem _ h)
        · exact Or.inr h

theorem foldlM_pins_invariant (L : List PyVal) :
    ∀ m m' : List (PyKey × List Pin),
    (∀ kp ∈ m, SortedByNumber kp.2) →
    L.foldlM pinsSymbol m = .ok m' →
    ∀ kp ∈ m', SortedByNumber kp.2 := by
  induction L with
  | nil =>
    intro m m' hm h
    replace h : Except.ok m = Except.ok m' := h
    rw [← Except.ok.inj h]
    exact hm
  | cons x xs ih =>
    intro m m' hm h
    rw [List.foldlM_cons, ebind_ok_iff] at h
    obtain ⟨m1, h1, h⟩ := h
    refine ih m1 m' ?_ h
    rcases pinsSymbol_shape h1 with rfl | ⟨k, dec, hdec, rfl⟩
    · exact hm
    · intro kp hkp
      rcases mem_kSet hkp with hkp | hv
      · exact hm kp hkp
      · rw [hv]
        exact ⟨sortByKey dec, rfl, sortByKey_pairwise dec,
          fun z hz => hdec z (mem_sortByKey.mp hz)⟩

/-- C5: whenever `extract_symbols_to_pins_map` succeeds, every pin list in
the resulting map is sorted ascending by the pin number string parsed as an
integer (numeric, not lexicographic). -/
theorem C5_pins_sorted_numerically (tree : PyVal)
    (m : List (PyKey × List Pin)) (kp : PyKey × List Pin)
    (h : extract_symbols_to_pins_map tree = .ok m) (hkp : kp ∈ m) :
    SortedByNumber kp.2 := by
  cases tree with
  | none => exact Except.noConfusion h
  | str s => exact Except.noConfusion h
  | lst xs => exact Except.noConfusion h
  | dict kvs =>
    have h2 : (pyIter (match dGetD kvs "symbol" (PyVal.lst []) with
        | PyVal.dict s => PyVal.lst [PyVal.dict s]
        | v => v) >>= fun syms => syms.foldlM pinsSymbol []) = .ok m := h
    rw [ebind_ok_iff] at h2
    obtain ⟨syms, hsy, h2⟩ := h2
    exact foldlM_pins_invariant syms [] m
      (fun z hz => absurd hz (List.not_mem_nil z)) h2 kp hkp

/-- Witness for C5: pins numbered "2", "10", "1" in source order come out
in numeric order "1", "2", "10". -/
theorem C5_pins_sorted_numerically_witness :
    extract_symbols_to_pins_map pinsWitnessTree =
      .ok [(some "R1", [pinC5 "c" "1", pinC5 "a" "2", pinC5 "b" "10"])] ∧
    SortedByNumber [pinC5 "c" "1", pinC5 "a" "2", pinC5 "b" "10"] :=
  ⟨rfl, C5_pins_sorted_numerically pinsWitnessTree _ _ rfl
    (List.mem_singleton.mpr rfl)⟩

/-! ## Witnesses for the claim theorems with hypotheses -/

open TitleBlockParser in
/-- Witness for C3 at a concrete schematic with a one-field title block. -/
theorem C3_roundtrip_witness :
    parse ["(uuid x)\n".data, "(title_block\n".data,
        "  (date \"2024-01-01\")\n".data, ")\n".data, "(wire)\n".data] =
      some [("date".data, "2024-01-01".data)] ∧
    (parse (insertTB [("date".data, "2024-01-01".data)]
        (linesWithoutTitleBlock
          ["(uuid x)\n".data, "(title_block\n".data,
           "  (date \"2024-01-01\")\n".data, ")\n".data, "(wire)\n".data])) =
      some [("date".data, "2024-01-01".data)] ∧
    linesWithoutTitleBlock (insertTB [("date".data, "2024-01-01".data)]
        (linesWithoutTitleBlock
          ["(uuid x)\n".data, "(title_block\n".data,
           "  (date \"2024-01-01\")\n".data, ")\n".data, "(wire)\n".data])) =
      linesWithoutTitleBlock
          ["(uuid x)\n".data, "(title_block\n".data,
           "  (date \"2024-01-01\")\n".data, ")\n".data, "(wire)\n".data]) :=
  ⟨rfl, C3_roundtrip _ _ rfl
    ⟨"(uuid x)\n".data, by decide, by decide⟩ (by decide)⟩

open TitleBlockParser in
/-- Witness for C4 on a one-file file system. -/
theorem C4_backup_restore_witness :
    ∃ fs2,
      (update_file_inplace_with_backup
          [("a.kicad_sch", ["(kicad_sch\n".data, "  (uuid abc)\n".data,
            ")\n".data])] "a.kicad_sch" [("rev".data, "r1".data)] >>= fun fs1 =>
        restore_backup fs1 "a.kicad_sch") = .ok fs2 ∧
      fsLookup fs2 "a.kicad_sch" =
        some ["(kicad_sch\n".data, "  (uuid abc)\n".data, ")\n".data] ∧
      fsLookup fs2 (backup_filename "a.kicad_sch") = Option.none :=
  C4_backup_restore _ _ _ _ rfl

/-- Witness for C6: dropping the extending symbol leaves both extractor
outputs unchanged. -/
theorem C6_extends_filtering_witness :
    extract_symbols_to_pins_map
        (.dict [("tag", .str "kicad_symbol_lib"),
                ("symbol", .lst [PyVal.dict sC6])]) =
      extract_symbols_to_pins_map
        (.dict [("tag", .str "kicad_symbol_lib"), ("symbol", .lst [])]) ∧
    extract_symbols_to_graphical_elements_map
        (.dict [("tag", .str "kicad_symbol_lib"),
                ("symbol", .lst [PyVal.dict sC6])]) =
      extract_symbols_to_graphical_elements_map
        (.dict [("tag", .str "kicad_symbol_lib"), ("symbol", .lst [])]) :=
  C6_extends_filtering _ _ [] [] sC6 rfl rfl ⟨.str "R_EXT", [], rfl⟩
    ⟨_, rfl, fun h => PyVal.noConfusion h⟩
    (fun h => PyVal.noConfusion
      ((show dGet sC6 "extends" = PyVal.str "R_BASE" from rfl) ▸ h))

open TitleBlockParser in
/-- Witness for C9 on a four-line schematic with a UUID but no title
block. -/
theorem C9_update_file_creates_block_witness :
    parse ["(kicad_sch\n".data, "  (uuid abc)\n".data, "  (wire)\n".data,
        ")\n".data] = Option.none ∧
    (∃ F1 u F2, ["(kicad_sch\n".data, "  (uuid abc)\n".data,
        "  (wire)\n".data, ")\n".data] = F1 ++ u :: F2 ∧
      (∀ l ∈ F1, isInfixB uuidChars (stripWs l) = false) ∧
      isInfixB uuidChars (stripWs u) = true ∧
      updateLines ["(kicad_sch\n".data, "  (uuid abc)\n".data,
          "  (wire)\n".data, ")\n".data] [("rev".data, "r1".data)] =
        F1 ++ u :: (tbBlockLines [("rev".data, "r1".data)] ++ F2)) ∧
    (∀ p q, ["(kicad_sch\n".data, "  (uuid abc)\n".data, "  (wire)\n".data,
        ")\n".data] = p ++ q →
      updateLines (p ++ openLine :: closeLine :: q) [("rev".data, "r1".data)] =
        updateLines ["(kicad_sch\n".data, "  (uuid abc)\n".data,
          "  (wire)\n".data, ")\n".data] [("rev".data, "r1".data)]) :=
  C9_update_file_creates_block _ _ (by decide) (by decide)
    ⟨"  (uuid abc)\n".data, by decide, by decide⟩

/-- Witness for C10: a library holding only that symbol crashes both
extractors. -/
theorem C10_missing_subsymbol_crashes_witness :
    (∃ e, extract_symbols_to_pins_map
        (.dict [("tag", .str "kicad_symbol_lib"),
                ("symbol", .lst [PyVal.dict sC10])]) = .error e) ∧
    (∃ e, extract_symbols_to_graphical_elements_map
        (.dict [("tag", .str "kicad_symbol_lib"),
                ("symbol", .lst [PyVal.dict sC10])]) = .error e) :=
  C10_missing_subsymbol_crashes _ [] [] sC10 rfl ⟨.str "R2", [], rfl⟩
    ⟨_, rfl, fun h => PyVal.noConfusion h⟩ rfl rfl

end KiCadPA
